import Mathlib

/-
Verification of the itinerary converter (convert_excel_to_json.py).

The script's text-processing pipeline is embedded shallowly over `List Char`:
Python strings become character lists, `str.lower`/`str.strip` become explicit
maps and drops, regular-expression operations become deterministic matchers
faithful to CPython's scanning semantics for the concrete patterns involved,
and pandas cells become `Option (List Char)` (with `none` for NaN).
-/

set_option autoImplicit false

namespace ItinConv

/-- Character list of a string literal. -/
def strL (s : String) : List Char := s.data

/-- Lower-case a character sequence, as Python `str.lower` acts on the ASCII
letters (the only cased characters appearing in this pipeline). -/
def lowerStr (s : List Char) : List Char := s.map Char.toLower

/-- Whitespace characters recognized by Python's `str.strip` and the regex
class `\s`, restricted to the ASCII range used by the data. -/
def pyIsSpace (c : Char) : Bool :=
  c = ' ' || c = '\t' || c = '\n' || c = '\r' || c = Char.ofNat 11 || c = Char.ofNat 12

/-- Python `str.strip`: remove leading and trailing whitespace. -/
def pyStrip (s : List Char) : List Char :=
  ((s.dropWhile pyIsSpace).reverse.dropWhile pyIsSpace).reverse

/-- Python substring containment (`pat in s`). -/
def hasSub (pat : List Char) : List Char → Bool
  | [] => pat.isEmpty
  | c :: cs => pat.isPrefixOf (c :: cs) || hasSub pat cs

/-! ## assign_activity_type -/

/-- Keywords matched against the lowered activity text for the travel tag. -/
def travelActivityKeywords : List (List Char) :=
  [strL "arrive", strL "flight", strL "taxi", strL "walk to", strL "vaporetto",
   strL "train", strL "water bus", strL "check-in", strL "check out",
   strL "luggage", strL "customs", strL "immigration"]

/-- Keywords matched against the lowered notes text for the travel tag. -/
def travelNotesKeywords : List (List Char) :=
  [strL "flight", strL "taxi", strL "vaporetto", strL "train"]

/-- Keywords matched against the lowered activity text for the dining tag. -/
def diningKeywords : List (List Char) :=
  [strL "breakfast", strL "lunch", strL "dinner", strL "gelato", strL "snack"]

/-- Keywords matched against the lowered activity text for the activity tag. -/
def activityKeywords : List (List Char) :=
  [strL "view", strL "relax", strL "explore", strL "free time", strL "gondola",
   strL "market"]

/-- Keywords matched against the lowered notes text for the activity tag. -/
def activityNotesKeywords : List (List Char) :=
  [strL "photo", strL "sightseeing", strL "market"]

/-- Guard of the travel branch of `assign_activity_type`. -/
def travelCond (activityLower notesLower : List Char) : Bool :=
  travelActivityKeywords.any (fun k => hasSub k activityLower) ||
    travelNotesKeywords.any (fun k => hasSub k notesLower)

/-- Guard of the dining branch of `assign_activity_type`. -/
def diningCond (activityLower : List Char) : Bool :=
  diningKeywords.any (fun k => hasSub k activityLower)

/-- Guard of the activity branch of `assign_activity_type`. -/
def activityCond (activityLower notesLower : List Char) : Bool :=
  activityKeywords.any (fun k => hasSub k activityLower) ||
    activityNotesKeywords.any (fun k => hasSub k notesLower)

/-- Embedding of `assign_activity_type`: appends the tags whose guards hold,
and falls back to the single tag "activity" when none does. -/
def assign_activity_type (activity notes : List Char) : List (List Char) :=
  let activityLower := lowerStr activity
  let notesLower := lowerStr notes
  let types :=
    (if travelCond activityLower notesLower then [strL "travel"] else []) ++
      (if diningCond activityLower then [strL "dining"] else []) ++
      (if activityCond activityLower notesLower then [strL "activity"] else [])
  if types.isEmpty then [strL "activity"] else types

/-- C1: `assign_activity_type` always returns a non-empty list of tags, and
when none of the travel, dining, or activity keyword guards fires it returns
exactly the singleton list containing "activity". -/
theorem assign_activity_type_default (activity notes : List Char) :
    assign_activity_type activity notes ≠ [] ∧
    (travelCond (lowerStr activity) (lowerStr notes) = false →
      diningCond (lowerStr activity) = false →
      activityCond (lowerStr activity) (lowerStr notes) = false →
      assign_activity_type activity notes = [strL "activity"]) := by
  constructor
  · by_cases h1 : travelCond (lowerStr activity) (lowerStr notes) <;>
      by_cases h2 : diningCond (lowerStr activity) <;>
      by_cases h3 : activityCond (lowerStr activity) (lowerStr notes) <;>
      simp [assign_activity_type, h1, h2, h3, strL]
  · intro h1 h2 h3
    simp [assign_activity_type, h1, h2, h3]

/-- Witness for C1 at the concrete pair ("Sleep", ""), which matches none of
the keyword sets. -/
theorem assign_activity_type_default_check :
    assign_activity_type (strL "Sleep") (strL "") ≠ [] ∧
    assign_activity_type (strL "Sleep") (strL "") = [strL "activity"] := by
  have h := assign_activity_type_default (strL "Sleep") (strL "")
  exact ⟨h.1, h.2 (by decide) (by decide) (by decide)⟩

/-! ## The filler regex of process_notes

The pattern is `(?:[Hh]old\s+(?:kids’?|children’s?)\s+hands?|watch\s+(?:kids|children))`
with `re.IGNORECASE`.  Its concrete shape admits a deterministic matcher: each
`\s+` is followed by a non-space literal, so greedy matching never backtracks
into the space run, and the two optional quantifiers are tried consume-first
exactly as the backtracking engine does. -/

/-- Consume characters whose lower-case forms spell `lit` (a case-insensitive
literal of the regex), returning the rest. -/
def eatCI (lit : List Char) (t : List Char) : Option (List Char) :=
  match lit, t with
  | [], rest => some rest
  | _ :: _, [] => none
  | l :: ls, c :: cs => if c.toLower = l then eatCI ls cs else none

/-- Consume one or more whitespace characters greedily (`\s+`). -/
def eatSp (t : List Char) : Option (List Char) :=
  match t with
  | [] => none
  | c :: cs => if pyIsSpace c then some (cs.dropWhile pyIsSpace) else none

/-- Optional case-insensitive one-character quantifier (`x?`) in front of the
continuation `cont`; the consuming branch is preferred, as in the engine. -/
def tryOpt (x : Char) (cont : List Char → Option (List Char)) (t : List Char) :
    Option (List Char) :=
  match t with
  | [] => cont []
  | c :: cs =>
    if c.toLower = x then (cont cs).orElse (fun _ => cont (c :: cs))
    else cont (c :: cs)

/-- Optional plural `s?` closing the first alternative (greedy, end of the
pattern). -/
def handsOpt (t2 : List Char) : Option (List Char) :=
  match t2 with
  | [] => some []
  | c :: cs => if c.toLower = 's' then some cs else some (c :: cs)

/-- Tail `\s+hands?` of the first filler alternative. -/
def matchHandTail (t : List Char) : Option (List Char) :=
  (eatSp t).bind (fun t1 => (eatCI (strL "hand") t1).bind handsOpt)

/-- Middle alternative `kids’?` followed by the hand tail. -/
def kidsAlt (t2 : List Char) : Option (List Char) :=
  (eatCI (strL "kids") t2).bind (fun t3 => tryOpt '’' matchHandTail t3)

/-- Required right single quote and optional `s?` after `children`. -/
def childTail (t3 : List Char) : Option (List Char) :=
  match t3 with
  | [] => none
  | c :: cs => if c = '’' then tryOpt 's' matchHandTail cs else none

/-- Middle alternative `children’s?` followed by the hand tail. -/
def childrenAlt (t2 : List Char) : Option (List Char) :=
  (eatCI (strL "children") t2).bind childTail

/-- First filler alternative `[Hh]old\s+(?:kids’?|children’s?)\s+hands?`. -/
def matchFillerA (t : List Char) : Option (List Char) :=
  (eatCI (strL "hold") t).bind (fun t1 =>
    (eatSp t1).bind (fun t2 => (kidsAlt t2).orElse (fun _ => childrenAlt t2)))

/-- Second filler alternative `watch\s+(?:kids|children)`. -/
def matchFillerB (t : List Char) : Option (List Char) :=
  (eatCI (strL "watch") t).bind (fun t1 =>
    (eatSp t1).bind (fun t2 =>
      (eatCI (strL "kids") t2).orElse (fun _ => eatCI (strL "children") t2)))

/-- Match of the filler regex anchored at the head of `t`; returns the suffix
after the match. -/
def matchFiller (t : List Char) : Option (List Char) :=
  (matchFillerA t).orElse (fun _ => matchFillerB t)

/-- Fueled scan of `re.sub(filler, '', text)`: at each position delete the
match if one starts there, else keep the character and advance. -/
def removeFillerGo : Nat → List Char → List Char
  | 0, t => t
  | _ + 1, [] => []
  | f + 1, c :: cs =>
    match matchFiller (c :: cs) with
    | some rest => removeFillerGo f rest
    | none => c :: removeFillerGo f cs

/-- Python `re.sub(filler, '', text)`; the fuel `t.length` suffices because
every match consumes at least one character. -/
def removeFiller (t : List Char) : List Char := removeFillerGo t.length t

/-! ## process_notes -/

/-- Split into pieces at every character satisfying `p`, keeping empty pieces,
as `re.split` with a one-character class does. -/
def splitOnPred (p : Char → Bool) : List Char → List (List Char)
  | [] => [[]]
  | c :: cs =>
    if p c then [] :: splitOnPred p cs
    else
      match splitOnPred p cs with
      | [] => [[c]]
      | piece :: rest => (c :: piece) :: rest

/-- Fragment separator class `[.\n;]` of `process_notes`. -/
def isFragSep (c : Char) : Bool := c = '.' || c = '\n' || c = ';'

/-- Inner guard of `process_notes`: the fragment mentions the euro sign, a
fare, or a ticket (the latter two case-insensitively). -/
def ticketCond (s : List Char) : Bool :=
  hasSub (strL "€") s || hasSub (strL "fare") (lowerStr s) ||
    hasSub (strL "ticket") (lowerStr s)

/-- Outer guard of `process_notes` recognizing cost-related fragments. -/
def costCond (s : List Char) : Bool :=
  hasSub (strL "cost") (lowerStr s) || hasSub (strL "€") s ||
    [strL "apple pay", strL "cash", strL "ticket", strL "fare", strL "price",
      strL "booking", strL "reservation"].any (fun k => hasSub k (lowerStr s))

/-- Loop of `process_notes`: every fragment goes to the costs list; a fragment
also goes to the tickets list when both guards hold. -/
def classifyFrags : List (List Char) → List (List Char) × List (List Char)
  | [] => ([], [])
  | s :: rest =>
    let pair := classifyFrags rest
    if costCond s then
      (s :: pair.1, if ticketCond s then s :: pair.2 else pair.2)
    else (s :: pair.1, pair.2)

/-- Fragments of the notes text: split on `[.\n;]`, strip each piece, drop the
empty ones. -/
def noteFragments (notes : List Char) : List (List Char) :=
  ((splitOnPred isFragSep notes).map pyStrip).filter (fun s => !s.isEmpty)

/-- Embedding of `process_notes`; `none` models a NaN cell. -/
def process_notes (notes : Option (List Char)) :
    List (List Char) × List (List Char) :=
  match notes with
  | none => ([], [strL "None."])
  | some text =>
    let cleaned := pyStrip (removeFiller text)
    if cleaned.isEmpty then ([], [strL "None."])
    else
      let pair := classifyFrags (noteFragments cleaned)
      (if pair.1.isEmpty then [] else pair.1,
        if pair.2.isEmpty then [strL "None."] else pair.2)

theorem classifyFrags_eq (l : List (List Char)) :
    classifyFrags l = (l, l.filter (fun s => costCond s && ticketCond s)) := by
  induction l with
  | nil => rfl
  | cons s rest ih =>
    by_cases h : costCond s = true <;> by_cases h2 : ticketCond s = true <;>
      simp [classifyFrags, ih, h, h2, List.filter_cons]

theorem ticketCond_imp_costCond {s : List Char} (h : ticketCond s = true) :
    costCond s = true := by
  simp only [ticketCond, Bool.or_eq_true] at h
  simp only [costCond, List.any_cons, List.any_nil, Bool.or_eq_true]
  tauto

theorem splitOnPred_ne_nil (p : Char → Bool) (t : List Char) :
    splitOnPred p t ≠ [] := by
  induction t with
  | nil => simp [splitOnPred]
  | cons c cs ih =>
    by_cases h : p c = true
    · simp [splitOnPred, h]
    · simp only [splitOnPred, h]
      cases hrec : splitOnPred p cs <;> simp

theorem mem_splitOnPred_sep {p : Char → Bool} {t s : List Char}
    (hs : s ∈ splitOnPred p t) {c : Char} (hc : c ∈ s) : p c = false := by
  induction t generalizing s with
  | nil =>
    simp only [splitOnPred, List.mem_singleton] at hs
    subst hs; simp at hc
  | cons c' cs ih =>
    simp only [splitOnPred] at hs
    by_cases h : p c' = true
    · rw [if_pos h] at hs
      rcases List.mem_cons.mp hs with rfl | hs'
      · simp at hc
      · exact ih hs' hc
    · rw [if_neg h] at hs
      cases hrec : splitOnPred p cs with
      | nil => exact absurd hrec (splitOnPred_ne_nil p cs)
      | cons piece rest =>
        rw [hrec] at hs
        rcases List.mem_cons.mp hs with rfl | hs'
        · rcases List.mem_cons.mp hc with rfl | hc'
          · simpa using h
          · exact ih (by rw [hrec]; exact List.mem_cons_self piece rest) hc'
        · exact ih (by rw [hrec]; exact List.mem_cons_of_mem piece hs') hc

theorem pyStrip_subset {s : List Char} : ∀ c ∈ pyStrip s, c ∈ s := by
  intro c hc
  simp only [pyStrip, List.mem_reverse] at hc
  have h1 := (List.dropWhile_sublist pyIsSpace).subset hc
  rw [List.mem_reverse] at h1
  exact (List.dropWhile_sublist pyIsSpace).subset h1

theorem mem_noteFragments_no_dot {t f : List Char} (hf : f ∈ noteFragments t) :
    '.' ∉ f := by
  intro hdot
  simp only [noteFragments, List.mem_filter, List.mem_map] at hf
  obtain ⟨⟨piece, hpiece, rfl⟩, _⟩ := hf
  have := mem_splitOnPred_sep hpiece (pyStrip_subset _ hdot)
  simp [isFragSep] at this

theorem filter_cost_ticket (l : List (List Char)) :
    l.filter (fun x => costCond x && ticketCond x) =
      l.filter (fun x => ticketCond x) := by
  apply List.filter_congr
  intro x _
  by_cases hx : ticketCond x = true
  · simp [hx, ticketCond_imp_costCond hx]
  · simp [hx]

theorem process_notes_some_eq (s : List Char) :
    process_notes (some s) =
      if (pyStrip (removeFiller s)).isEmpty then ([], [strL "None."])
      else
        ((if (noteFragments (pyStrip (removeFiller s))).isEmpty then []
            else noteFragments (pyStrip (removeFiller s))),
          (if ((noteFragments (pyStrip (removeFiller s))).filter
                (fun x => costCond x && ticketCond x)).isEmpty then [strL "None."]
            else (noteFragments (pyStrip (removeFiller s))).filter
              (fun x => costCond x && ticketCond x))) := by
  simp only [process_notes, classifyFrags_eq]

theorem noteFragments_nil : noteFragments [] = [] := by decide

/-- C2: for non-empty notes, the costs list is exactly the list of fragments
obtained after filler removal, stripping and dropping empties, and a fragment
belongs to the tickets list iff it mentions the euro sign or the words
"fare"/"ticket" case-insensitively. -/
theorem process_notes_fragments (s : List Char) (_hs : s ≠ []) :
    (process_notes (some s)).1 = noteFragments (pyStrip (removeFiller s)) ∧
    ∀ f ∈ noteFragments (pyStrip (removeFiller s)),
      (f ∈ (process_notes (some s)).2 ↔ ticketCond f = true) := by
  rw [process_notes_some_eq]
  by_cases hempty : (pyStrip (removeFiller s)).isEmpty = true
  · rw [if_pos hempty]
    have hnil : pyStrip (removeFiller s) = [] := List.isEmpty_iff.mp hempty
    have hfe : noteFragments (pyStrip (removeFiller s)) = [] := by
      rw [hnil, noteFragments_nil]
    constructor
    · simp [hfe]
    · intro f hf
      rw [hfe] at hf
      simp at hf
  · rw [if_neg hempty]
    constructor
    · by_cases hf0 : (noteFragments (pyStrip (removeFiller s))).isEmpty = true
      · rw [if_pos hf0]
        exact (List.isEmpty_iff.mp hf0).symm
      · rw [if_neg hf0]
    · intro f hf
      by_cases hts : ((noteFragments (pyStrip (removeFiller s))).filter
          (fun x => costCond x && ticketCond x)).isEmpty = true
      · rw [if_pos hts]
        constructor
        · intro hmem
          exfalso
          have hfeq : f = strL "None." := List.mem_singleton.mp hmem
          exact mem_noteFragments_no_dot hf (by rw [hfeq]; decide)
        · intro htc
          exfalso
          rw [List.isEmpty_iff, filter_cost_ticket, List.filter_eq_nil_iff] at hts
          exact absurd htc (by simpa using hts f hf)
      · rw [if_neg hts, filter_cost_ticket]
        constructor
        · intro hmem
          exact (List.mem_filter.mp hmem).2
        · intro htc
          exact List.mem_filter.mpr ⟨hf, htc⟩

/-- Witness for C2 on a concrete notes text with two fragments, one of which
meets the ticket criteria. -/
theorem process_notes_fragments_check :
    (process_notes (some (strL "Museum fare €10. Walk around"))).1 =
      [strL "Museum fare €10", strL "Walk around"] ∧
    (strL "Museum fare €10" ∈
        (process_notes (some (strL "Museum fare €10. Walk around"))).2 ↔
      ticketCond (strL "Museum fare €10") = true) := by
  have h := process_notes_fragments (strL "Museum fare €10. Walk around") (by decide)
  exact ⟨h.1.trans (by decide), h.2 _ (by decide)⟩

/-- C3: `process_notes` is total with a never-empty tickets list: the tickets
component is non-empty for every input, absent notes give the default pair,
and when no fragment meets the ticket criteria the tickets default to
["None."]. -/
theorem process_notes_tickets_nonempty (notes : Option (List Char)) :
    (process_notes notes).2 ≠ [] ∧
    (notes = none → process_notes notes = ([], [strL "None."])) ∧
    (∀ s, notes = some s →
      (noteFragments (pyStrip (removeFiller s))).filter (fun f => ticketCond f) = [] →
      (process_notes notes).2 = [strL "None."]) := by
  refine ⟨?_, ?_, ?_⟩
  · cases notes with
    | none => simp [process_notes]
    | some s =>
      rw [process_notes_some_eq]
      by_cases hempty : (pyStrip (removeFiller s)).isEmpty = true
      · rw [if_pos hempty]
        simp
      · rw [if_neg hempty]
        by_cases hts : ((noteFragments (pyStrip (removeFiller s))).filter
            (fun x => costCond x && ticketCond x)).isEmpty = true
        · rw [if_pos hts]
          simp
        · rw [if_neg hts]
          simpa [List.isEmpty_iff] using hts
  · rintro rfl
    rfl
  · rintro s rfl hfil
    rw [process_notes_some_eq]
    by_cases hempty : (pyStrip (removeFiller s)).isEmpty = true
    · rw [if_pos hempty]
    · rw [if_neg hempty]
      rw [filter_cost_ticket, hfil]
      simp

/-- Witness for C3 on concrete notes with no ticket-related fragment. -/
theorem process_notes_tickets_nonempty_check :
    (process_notes (some (strL "See the plaza"))).2 ≠ [] ∧
    (process_notes (some (strL "See the plaza"))).2 = [strL "None."] := by
  have h := process_notes_tickets_nonempty (some (strL "See the plaza"))
  exact ⟨h.1, h.2.2 _ rfl (by decide)⟩

/-! ## generate_map_link -/

/-- Match of the separator regex `\s*(?:to|→)\s*` anchored at the head of `t`;
returns the suffix after the match.  Both space runs are matched greedily,
which agrees with the engine because the following literal starts with a
non-space character. -/
def matchSep (t : List Char) : Option (List Char) :=
  match t.dropWhile pyIsSpace with
  | 't' :: 'o' :: rest => some (rest.dropWhile pyIsSpace)
  | '→' :: rest => some (rest.dropWhile pyIsSpace)
  | _ => none

/-- Fueled `re.split(r'\s*(?:to|→)\s*', t)`: the pieces between the
non-overlapping separator matches, empty pieces kept.  The fuel `t.length`
suffices because every separator match consumes at least one character. -/
def splitSepGo : Nat → List Char → List (List Char)
  | 0, _ => [[]]
  | _ + 1, [] => [[]]
  | f + 1, c :: cs =>
    match matchSep (c :: cs) with
    | some rest => [] :: splitSepGo f rest
    | none =>
      match splitSepGo f cs with
      | [] => [[c]]
      | piece :: rest => (c :: piece) :: rest

/-- `re.split` of generate_map_link. -/
def splitSep (t : List Char) : List (List Char) := splitSepGo t.length t

/-- Link construction of generate_map_link: delete spaces and parentheses. -/
def cleanLoc (l : List Char) : List Char :=
  l.filter (fun c => !(c = ' ' || c = '(' || c = ')'))

/-- Fixed base URL of the placeholder links. -/
def mapBase : List Char := strL "https://maps.app.goo.gl/"

/-- Embedding of generate_map_link.  The Python function returns either a list
of links or a single string; the sum distinguishes the two shapes. -/
def generate_map_link (location : List Char) :
    Sum (List (List Char)) (List Char) :=
  let locations := (splitSep location).map pyStrip
  if locations.length > 1 then
    Sum.inl (locations.map (fun loc => mapBase ++ cleanLoc loc))
  else Sum.inr (mapBase ++ cleanLoc location)

theorem splitSepGo_ne_nil (f : Nat) (t : List Char) : splitSepGo f t ≠ [] := by
  induction f generalizing t with
  | zero => simp [splitSepGo]
  | succ f ih =>
    cases t with
    | nil => simp [splitSepGo]
    | cons c cs =>
      simp only [splitSepGo]
      cases hm : matchSep (c :: cs) with
      | some rest => simp
      | none =>
        cases hrec : splitSepGo f cs with
        | nil => simp
        | cons piece rest => simp

theorem splitSepGo_two {f : Nat} : ∀ {t : List Char}, t.length ≤ f →
    (hasSub (strL "to") t = true ∨ hasSub (strL "→") t = true) →
    2 ≤ (splitSepGo f t).length := by
  induction f with
  | zero =>
    intro t ht h
    have : t = [] := List.length_eq_zero.mp (Nat.le_zero.mp ht)
    subst this
    rcases h with h | h <;> simp [hasSub, strL] at h
  | succ f ih =>
    intro t ht h
    cases t with
    | nil => rcases h with h | h <;> simp [hasSub, strL] at h
    | cons c cs =>
      simp only [splitSepGo]
      cases hm : matchSep (c :: cs) with
      | some rest =>
        have := splitSepGo_ne_nil f rest
        simp only [List.length_cons]
        have : 1 ≤ (splitSepGo f rest).length := by
          cases hx : splitSepGo f rest with
          | nil => exact absurd hx (splitSepGo_ne_nil f rest)
          | cons a as => simp
        omega
      | none =>
        have htail : hasSub (strL "to") cs = true ∨ hasSub (strL "→") cs = true := by
          rcases h with h | h
          · simp only [hasSub, Bool.or_eq_true] at h
            rcases h with h | h
            · exfalso
              rw [List.isPrefixOf_iff_prefix] at h
              obtain ⟨rest, hrest⟩ := h
              rw [show strL "to" = ['t', 'o'] from rfl] at hrest
              simp only [List.cons_append, List.nil_append] at hrest
              cases hrest
              rw [show matchSep ('t' :: 'o' :: rest) = some (rest.dropWhile pyIsSpace) from by
                simp [matchSep, List.dropWhile_cons, pyIsSpace]] at hm
              exact Option.noConfusion hm
            · exact Or.inl h
          · simp only [hasSub, Bool.or_eq_true] at h
            rcases h with h | h
            · exfalso
              rw [List.isPrefixOf_iff_prefix] at h
              obtain ⟨rest, hrest⟩ := h
              rw [show strL "→" = ['→'] from rfl] at hrest
              simp only [List.cons_append, List.nil_append] at hrest
              cases hrest
              rw [show matchSep ('→' :: cs) = some (cs.dropWhile pyIsSpace) from by
                simp [matchSep, List.dropWhile_cons, pyIsSpace]] at hm
              exact Option.noConfusion hm
            · exact Or.inr h
        have hlen : cs.length ≤ f := by
          simp only [List.length_cons] at ht
          omega
        have h2 := ih hlen htail
        cases hrec : splitSepGo f cs with
        | nil => exact absurd hrec (splitSepGo_ne_nil f cs)
        | cons piece rest =>
          rw [hrec] at h2
          simpa using h2

/-- C7: a location whose text contains a separator ("to" or "→", matched as a
substring) splits into more than one leg, and then generate_map_link returns
one placeholder link per stripped leg, each the base URL followed by the leg
with spaces and parentheses removed; a location that does not split returns a
single such link built from the whole text. -/
theorem generate_map_link_spec (location : List Char) :
    ((hasSub (strL "to") location = true ∨ hasSub (strL "→") location = true) →
      1 < ((splitSep location).map pyStrip).length) ∧
    (1 < ((splitSep location).map pyStrip).length →
      generate_map_link location =
        Sum.inl (((splitSep location).map pyStrip).map
          (fun leg => mapBase ++ cleanLoc leg))) ∧
    (¬ 1 < ((splitSep location).map pyStrip).length →
      generate_map_link location = Sum.inr (mapBase ++ cleanLoc location)) := by
  refine ⟨?_, ?_, ?_⟩
  · intro h
    have h2 := splitSepGo_two (Nat.le_refl location.length) h
    simpa [splitSep, List.length_map] using h2
  · intro h
    simp only [generate_map_link]
    rw [if_pos h]
  · intro h
    simp only [generate_map_link]
    rw [if_neg h]

/-- Witness for C7 on "Venice to Murano": exactly two links, one per leg. -/
theorem generate_map_link_spec_check :
    generate_map_link (strL "Venice to Murano") =
      Sum.inl [strL "https://maps.app.goo.gl/Venice",
        strL "https://maps.app.goo.gl/Murano"] := by
  have h := generate_map_link_spec (strL "Venice to Murano")
  exact (h.2.1 (h.1 (Or.inl (by decide)))).trans (by decide)

/-- C9: the separator match has no word boundaries: the single word "Porto"
splits at its embedded "to" into the legs "Por" and "", so the function
returns a list of two links rather than a single link. -/
theorem generate_map_link_unanchored :
    generate_map_link (strL "Porto") =
      Sum.inl [strL "https://maps.app.goo.gl/Por", strL "https://maps.app.goo.gl/"] ∧
    (splitSep (strL "Porto")).map pyStrip = [strL "Por", []] :=
  ⟨by decide, by decide⟩

/-! ## normalize_columns -/

/-- Embedding of normalize_columns for string labels: strip, then lower. -/
def normalize_columns (columns : List (List Char)) : List (List Char) :=
  columns.map (fun col => lowerStr (pyStrip col))

theorem toNat_ofNat_valid {n : Nat} (h : n < 55296) : (Char.ofNat n).toNat = n := by
  simp only [Char.ofNat]
  rw [dif_pos (Or.inl h)]
  rfl

theorem toNat_toLower (c : Char) :
    c.toLower.toNat = if c.toNat ≥ 65 ∧ c.toNat ≤ 90 then c.toNat + 32 else c.toNat := by
  simp only [Char.toLower]
  by_cases h : c.toNat ≥ 65 ∧ c.toNat ≤ 90
  · rw [if_pos h, if_pos h]
    exact toNat_ofNat_valid (by omega)
  · rw [if_neg h, if_neg h]

theorem char_toNat_inj {a b : Char} (h : a.toNat = b.toNat) : a = b := by
  have h2 := congrArg Char.ofNat h
  rwa [Char.ofNat_toNat, Char.ofNat_toNat] at h2

theorem toLower_toLower (c : Char) : c.toLower.toLower = c.toLower := by
  apply char_toNat_inj
  simp only [toNat_toLower]
  split_ifs <;> omega

theorem pyIsSpace_iff_toNat (x : Char) :
    pyIsSpace x = true ↔
      (x.toNat = 32 ∨ x.toNat = 9 ∨ x.toNat = 10 ∨ x.toNat = 13 ∨
        x.toNat = 11 ∨ x.toNat = 12) := by
  simp only [pyIsSpace, Bool.or_eq_true, decide_eq_true_eq]
  constructor
  · rintro (((((rfl | rfl) | rfl) | rfl) | rfl) | rfl) <;> decide
  · rintro (h | h | h | h | h | h)
    · exact Or.inl (Or.inl (Or.inl (Or.inl (Or.inl (char_toNat_inj (by rw [h]; decide))))))
    · exact Or.inl (Or.inl (Or.inl (Or.inl (Or.inr (char_toNat_inj (by rw [h]; decide))))))
    · exact Or.inl (Or.inl (Or.inl (Or.inr (char_toNat_inj (by rw [h]; decide)))))
    · exact Or.inl (Or.inl (Or.inr (char_toNat_inj (by rw [h]; decide))))
    · exact Or.inl (Or.inr (char_toNat_inj (by rw [h]; decide)))
    · exact Or.inr (char_toNat_inj (by rw [h]; decide))

theorem pyIsSpace_toLower (c : Char) : pyIsSpace c.toLower = pyIsSpace c := by
  rw [Bool.eq_iff_iff, pyIsSpace_iff_toNat, pyIsSpace_iff_toNat, toNat_toLower]
  by_cases h : c.toNat ≥ 65 ∧ c.toNat ≤ 90
  · rw [if_pos h]
    omega
  · rw [if_neg h]

theorem dropWhile_lower (l : List Char) :
    (l.map Char.toLower).dropWhile pyIsSpace =
      (l.dropWhile pyIsSpace).map Char.toLower := by
  rw [List.dropWhile_map,
    show pyIsSpace ∘ Char.toLower = pyIsSpace from funext pyIsSpace_toLower]

theorem pyStrip_lowerStr (s : List Char) :
    pyStrip (lowerStr s) = lowerStr (pyStrip s) := by
  simp only [pyStrip, lowerStr]
  rw [dropWhile_lower, ← List.map_reverse, dropWhile_lower, ← List.map_reverse]

theorem dropWhile_twice {α : Type} (p : α → Bool) (l : List α) :
    (l.dropWhile p).dropWhile p = l.dropWhile p := by
  induction l with
  | nil => rfl
  | cons c cs ih =>
    by_cases h : p c = true
    · rw [List.dropWhile_cons_of_pos h]
      exact ih
    · rw [List.dropWhile_cons_of_neg h, List.dropWhile_cons_of_neg h]

theorem dropWhile_head_false {α : Type} (p : α → Bool) (l : List α) :
    l.dropWhile p = [] ∨ ∃ c cs, l.dropWhile p = c :: cs ∧ p c = false := by
  induction l with
  | nil => exact Or.inl rfl
  | cons c cs ih =>
    by_cases h : p c = true
    · rw [List.dropWhile_cons_of_pos h]
      exact ih
    · rw [List.dropWhile_cons_of_neg h]
      exact Or.inr ⟨c, cs, rfl, by simpa using h⟩

theorem pyStrip_head (s : List Char) :
    (pyStrip s).dropWhile pyIsSpace = pyStrip s := by
  rcases dropWhile_head_false pyIsSpace s with ha | ⟨c, cs, ha, hc⟩
  · have hz : pyStrip s = [] := by simp [pyStrip, ha]
    rw [hz]
    rfl
  · obtain ⟨u, hu⟩ := (List.dropWhile_suffix pyIsSpace :
      (s.dropWhile pyIsSpace).reverse.dropWhile pyIsSpace <:+
        (s.dropWhile pyIsSpace).reverse)
    have hps : pyStrip s =
        ((s.dropWhile pyIsSpace).reverse.dropWhile pyIsSpace).reverse := rfl
    have ha2 : pyStrip s ++ u.reverse = c :: cs := by
      rw [hps, ← List.reverse_append, hu, List.reverse_reverse, ha]
    cases hpt : pyStrip s with
    | nil => rfl
    | cons d t' =>
      rw [hpt, List.cons_append] at ha2
      have hd : d = c := by
        have h3 := congrArg (fun l => l.head?) ha2
        simpa using h3
      rw [List.dropWhile_cons_of_neg (by rw [hd]; simp [hc])]

theorem pyStrip_idem (s : List Char) : pyStrip (pyStrip s) = pyStrip s := by
  show (((pyStrip s).dropWhile pyIsSpace).reverse.dropWhile pyIsSpace).reverse = pyStrip s
  rw [pyStrip_head]
  have h2 : (pyStrip s).reverse = (s.dropWhile pyIsSpace).reverse.dropWhile pyIsSpace := by
    simp [pyStrip]
  rw [h2, dropWhile_twice]
  rfl

theorem lowerStr_idem (s : List Char) : lowerStr (lowerStr s) = lowerStr s := by
  simp only [lowerStr, List.map_map]
  congr 1
  funext c
  exact toLower_toLower c

/-- C10: normalize_columns is idempotent, and every label it outputs is
already stripped of surrounding whitespace and lower-cased. -/
theorem normalize_columns_idem (columns : List (List Char)) :
    normalize_columns (normalize_columns columns) = normalize_columns columns ∧
    ∀ l ∈ normalize_columns columns, pyStrip l = l ∧ lowerStr l = l := by
  have key : ∀ col : List Char,
      pyStrip (lowerStr (pyStrip col)) = lowerStr (pyStrip col) := by
    intro col
    rw [pyStrip_lowerStr, pyStrip_idem]
  constructor
  · simp only [normalize_columns, List.map_map]
    congr 1
    funext col
    show lowerStr (pyStrip (lowerStr (pyStrip col))) = lowerStr (pyStrip col)
    rw [key, lowerStr_idem]
  · intro l hl
    simp only [normalize_columns, List.mem_map] at hl
    obtain ⟨col, -, rfl⟩ := hl
    exact ⟨key col, lowerStr_idem _⟩

/-- Witness for C10 on a concrete column list. -/
theorem normalize_columns_idem_check :
    normalize_columns (normalize_columns [strL "  Date ", strL "NOTES"]) =
      normalize_columns [strL "  Date ", strL "NOTES"] ∧
    (pyStrip (strL "date") = strL "date" ∧ lowerStr (strL "date") = strL "date") := by
  have h := normalize_columns_idem [strL "  Date ", strL "NOTES"]
  exact ⟨h.1, h.2 (strL "date") (by decide)⟩

/-! ## convert_date

CPython's strptime compiles each directive to a small regex
(`%d` to `3[0-1]|[1-2]\d|0[1-9]|[1-9]| [1-9]`, `%y` to `\d\d`,
`%Y` to `\d\d\d\d`, `%m` to `1[0-2]|0[1-9]|[1-9]`, `%H` to `2[0-3]|[0-1]\d|\d`,
`%M` to `[0-5]\d|\d`, `%S` to `6[0-1]|[0-5]\d|\d`, `%b` to the month
abbreviations case-insensitively, literal whitespace to `\s+`) and requires
the match to consume the whole string.  In both formats the character after
the day/month/hour/minute/second directive is never a digit, so committing to
a two-digit alternative before the one-digit fallback is equivalent to the
engine's backtracking; the space-day alternative of `%d` is disjoint from the
digit alternatives on its first character.  The datetime constructor
additionally rejects out-of-range days, seconds over 59, and year zero, which
`strptime` surfaces as the same ValueError as a failed parse. -/

/-- Decimal digit test (regex `\d` over this data). -/
def isDigitC (c : Char) : Bool := decide (48 ≤ c.toNat ∧ c.toNat ≤ 57)

/-- Numeric value of a digit character. -/
def digitVal (c : Char) : Nat := c.toNat - 48

/-- Directive `%d`: two-digit day 01..31, else one digit 1..9, else a space
followed by one digit 1..9 (the regex alternatives
`3[0-1]|[1-2]\d|0[1-9]|[1-9]| [1-9]` in order). -/
def parseDay (t : List Char) : Option (Nat × List Char) :=
  match t with
  | c1 :: c2 :: rest =>
    if isDigitC c1 = true ∧ isDigitC c2 = true ∧
        1 ≤ 10 * digitVal c1 + digitVal c2 ∧ 10 * digitVal c1 + digitVal c2 ≤ 31 then
      some (10 * digitVal c1 + digitVal c2, rest)
    else if isDigitC c1 = true ∧ 1 ≤ digitVal c1 then some (digitVal c1, c2 :: rest)
    else if c1 = ' ' ∧ isDigitC c2 = true ∧ 1 ≤ digitVal c2 then
      some (digitVal c2, rest)
    else none
  | [c1] =>
    if isDigitC c1 = true ∧ 1 ≤ digitVal c1 then some (digitVal c1, []) else none
  | [] => none

/-- Directive `%m`: two-digit month 01..12, else one digit 1..9. -/
def parseMonth (t : List Char) : Option (Nat × List Char) :=
  match t with
  | c1 :: c2 :: rest =>
    if isDigitC c1 = true ∧ isDigitC c2 = true ∧
        1 ≤ 10 * digitVal c1 + digitVal c2 ∧ 10 * digitVal c1 + digitVal c2 ≤ 12 then
      some (10 * digitVal c1 + digitVal c2, rest)
    else if isDigitC c1 = true ∧ 1 ≤ digitVal c1 then some (digitVal c1, c2 :: rest)
    else none
  | [c1] =>
    if isDigitC c1 = true ∧ 1 ≤ digitVal c1 then some (digitVal c1, []) else none
  | [] => none

/-- Directive `%H`: two-digit hour 00..23, else one digit 0..9. -/
def parseHour (t : List Char) : Option (Nat × List Char) :=
  match t with
  | c1 :: c2 :: rest =>
    if isDigitC c1 = true ∧ isDigitC c2 = true ∧
        10 * digitVal c1 + digitVal c2 ≤ 23 then
      some (10 * digitVal c1 + digitVal c2, rest)
    else if isDigitC c1 = true then some (digitVal c1, c2 :: rest)
    else none
  | [c1] => if isDigitC c1 = true then some (digitVal c1, []) else none
  | [] => none

/-- Directive `%M`: two-digit minute 00..59, else one digit 0..9. -/
def parseMinute (t : List Char) : Option (Nat × List Char) :=
  match t with
  | c1 :: c2 :: rest =>
    if isDigitC c1 = true ∧ isDigitC c2 = true ∧
        10 * digitVal c1 + digitVal c2 ≤ 59 then
      some (10 * digitVal c1 + digitVal c2, rest)
    else if isDigitC c1 = true then some (digitVal c1, c2 :: rest)
    else none
  | [c1] => if isDigitC c1 = true then some (digitVal c1, []) else none
  | [] => none

/-- Directive `%S`: two-digit second 00..61 (leap seconds pass the regex),
else one digit 0..9. -/
def parseSecond (t : List Char) : Option (Nat × List Char) :=
  match t with
  | c1 :: c2 :: rest =>
    if isDigitC c1 = true ∧ isDigitC c2 = true ∧
        10 * digitVal c1 + digitVal c2 ≤ 61 then
      some (10 * digitVal c1 + digitVal c2, rest)
    else if isDigitC c1 = true then some (digitVal c1, c2 :: rest)
    else none
  | [c1] => if isDigitC c1 = true then some (digitVal c1, []) else none
  | [] => none

/-- Directive `%Y`: exactly four digits. -/
def parse4Digits (t : List Char) : Option (Nat × List Char) :=
  match t with
  | c1 :: c2 :: c3 :: c4 :: rest =>
    if isDigitC c1 = true ∧ isDigitC c2 = true ∧ isDigitC c3 = true ∧
        isDigitC c4 = true then
      some (1000 * digitVal c1 + 100 * digitVal c2 + 10 * digitVal c3 + digitVal c4,
        rest)
    else none
  | _ => none

/-- Directive `%y`: exactly two digits (`\d\d`, no one-digit fallback). -/
def parseY2 (t : List Char) : Option (Nat × List Char) :=
  match t with
  | c1 :: c2 :: rest =>
    if isDigitC c1 = true ∧ isDigitC c2 = true then
      some (10 * digitVal c1 + digitVal c2, rest)
    else none
  | _ => none

/-- Abbreviated month names of the C locale, in calendar order. -/
def monthAbbrevTable : List (List Char × Nat) :=
  [(strL "jan", 1), (strL "feb", 2), (strL "mar", 3), (strL "apr", 4),
   (strL "may", 5), (strL "jun", 6), (strL "jul", 7), (strL "aug", 8),
   (strL "sep", 9), (strL "oct", 10), (strL "nov", 11), (strL "dec", 12)]

/-- Month number of a lowered three-character abbreviation. -/
def monthOfAbbr (k : List Char) : Option Nat := monthAbbrevTable.lookup k

/-- Directive `%b`: three characters forming a month abbreviation. -/
def parseMonAbbr (t : List Char) : Option (Nat × List Char) :=
  match t with
  | c1 :: c2 :: c3 :: rest =>
    (monthOfAbbr [c1.toLower, c2.toLower, c3.toLower]).map (fun m => (m, rest))
  | _ => none

/-- Literal character of the format string. -/
def expectChar (x : Char) (t : List Char) : Option (List Char) :=
  match t with
  | c :: cs => if c = x then some cs else none
  | [] => none

/-- Two-digit years are pivoted at 69, as POSIX strptime does. -/
def yearOfY2 (y2 : Nat) : Nat := if y2 ≤ 68 then 2000 + y2 else 1900 + y2

/-- Gregorian leap-year rule used by datetime. -/
def isLeap (y : Nat) : Bool :=
  decide (y % 4 = 0 ∧ (¬ y % 100 = 0 ∨ y % 400 = 0))

/-- Length of a month, as validated by the datetime constructor. -/
def daysInMonth (y m : Nat) : Nat :=
  if m = 2 then (if isLeap y = true then 29 else 28)
  else if m = 4 ∨ m = 6 ∨ m = 9 ∨ m = 11 then 30
  else 31

/-- strptime with format `%d-%b-%y`, anchored and consuming the whole string,
followed by the datetime constructor's day-of-month check.  Returns
(day, month, year). -/
def parseDMY (s : List Char) : Option (Nat × Nat × Nat) :=
  (parseDay s).bind (fun p1 =>
    (expectChar '-' p1.2).bind (fun t2 =>
      (parseMonAbbr t2).bind (fun p2 =>
        (expectChar '-' p2.2).bind (fun t4 =>
          (parseY2 t4).bind (fun p3 =>
            if p3.2 = [] ∧ p1.1 ≤ daysInMonth (yearOfY2 p3.1) p2.1 then
              some (p1.1, p2.1, yearOfY2 p3.1)
            else none)))))

/-- strptime with format `%Y-%m-%d %H:%M:%S`, anchored and consuming the whole
string, followed by the datetime constructor's checks (year at least 1, day in
range for the month, second at most 59).  Returns (year, month, day). -/
def parseYmdHMS (s : List Char) : Option (Nat × Nat × Nat) :=
  (parse4Digits s).bind (fun py =>
    (expectChar '-' py.2).bind (fun t2 =>
      (parseMonth t2).bind (fun pm =>
        (expectChar '-' pm.2).bind (fun t4 =>
          (parseDay t4).bind (fun pd =>
            (eatSp pd.2).bind (fun t6 =>
              (parseHour t6).bind (fun ph =>
                (expectChar ':' ph.2).bind (fun t8 =>
                  (parseMinute t8).bind (fun pmin =>
                    (expectChar ':' pmin.2).bind (fun t10 =>
                      (parseSecond t10).bind (fun ps =>
                        if ps.2 = [] ∧ 1 ≤ py.1 ∧ pd.1 ≤ daysInMonth py.1 pm.1 ∧
                            ps.1 ≤ 59 then
                          some (py.1, pm.1, pd.1)
                        else none)))))))))))

/-- Full month names produced by `%B` in the C locale. -/
def monthName (m : Nat) : List Char :=
  match m with
  | 1 => strL "January"
  | 2 => strL "February"
  | 3 => strL "March"
  | 4 => strL "April"
  | 5 => strL "May"
  | 6 => strL "June"
  | 7 => strL "July"
  | 8 => strL "August"
  | 9 => strL "September"
  | 10 => strL "October"
  | 11 => strL "November"
  | 12 => strL "December"
  | _ => []

/-- Fueled decimal rendering of a natural number (most significant first). -/
def natDecGo : Nat → Nat → List Char → List Char
  | 0, _, acc => acc
  | f + 1, n, acc =>
    if n < 10 then Char.ofNat (48 + n) :: acc
    else natDecGo f (n / 10) (Char.ofNat (48 + n % 10) :: acc)

/-- Decimal rendering without padding, as glibc `%Y` and the unpadded day. -/
def natDec (n : Nat) : List Char := natDecGo (n + 1) n []

/-- Zero-padded two-digit rendering, as `%d`. -/
def pad2 (d : Nat) : List Char := if d < 10 then '0' :: natDec d else natDec d

/-- Output of `strftime('%B %d, %Y')`. -/
def fmtMDY (y m d : Nat) : List Char :=
  monthName m ++ (' ' :: pad2 d) ++ (',' :: ' ' :: natDec y)

/-- Python `str.replace(' 0', ' ')`: non-overlapping left-to-right
replacement, never rescanning the emitted replacement. -/
def stripZero : List Char → List Char
  | [] => []
  | [c] => [c]
  | c :: c2 :: cs =>
    if c = ' ' ∧ c2 = '0' then ' ' :: stripZero cs
    else c :: stripZero (c2 :: cs)

/-- Embedding of convert_date: try `%d-%b-%y`, then `%Y-%m-%d %H:%M:%S`, and
on double failure return the input unchanged. -/
def convert_date (s : List Char) : List Char :=
  match parseDMY s with
  | some (d, m, y) => stripZero (fmtMDY y m d)
  | none =>
    match parseYmdHMS s with
    | some (y, m, d) => stripZero (fmtMDY y m d)
    | none => s

theorem stripZero_cons2_pos (cs : List Char) :
    stripZero (' ' :: '0' :: cs) = ' ' :: stripZero cs := by
  simp [stripZero]

theorem stripZero_cons2_neg {c c2 : Char} (cs : List Char)
    (h : ¬(c = ' ' ∧ c2 = '0')) :
    stripZero (c :: c2 :: cs) = c :: stripZero (c2 :: cs) := by
  simp only [stripZero]
  rw [if_neg h]

theorem stripZero_append_no_space {l : List Char} (hl : ∀ c ∈ l, c ≠ ' ')
    (r : List Char) : stripZero (l ++ r) = l ++ stripZero r := by
  induction l with
  | nil => rfl
  | cons c l' ih =>
    have hc : c ≠ ' ' := hl c (List.mem_cons_self c l')
    rw [List.cons_append]
    cases hlr : l' ++ r with
    | nil =>
      obtain ⟨hl', hr⟩ := List.append_eq_nil.mp hlr
      subst hl'
      subst hr
      rfl
    | cons d rest =>
      rw [stripZero_cons2_neg rest (fun hpair => hc hpair.1), ← hlr,
        ih (fun x hx => hl x (List.mem_cons_of_mem c hx)), List.cons_append]

theorem isDigitC_ne_space {c : Char} (h : isDigitC c = true) : c ≠ ' ' := by
  intro he
  rw [he] at h
  exact absurd h (by decide)

theorem stripZero_append_digits {l : List Char}
    (hl : ∀ c ∈ l, isDigitC c = true) (r : List Char) :
    stripZero (l ++ r) = l ++ stripZero r :=
  stripZero_append_no_space (fun c hc => isDigitC_ne_space (hl c hc)) r

theorem stripZero_of_digits {l : List Char} (hl : ∀ c ∈ l, isDigitC c = true) :
    stripZero l = l := by
  have h := stripZero_append_digits hl []
  rw [List.append_nil] at h
  rw [h, show stripZero ([] : List Char) = [] from rfl, List.append_nil]

theorem natDecGo_digits : ∀ f n acc, (∀ c ∈ acc, isDigitC c = true) →
    ∀ c ∈ natDecGo f n acc, isDigitC c = true := by
  intro f
  induction f with
  | zero => intro n acc hacc c hc; exact hacc c hc
  | succ f ih =>
    intro n acc hacc c hc
    simp only [natDecGo] at hc
    by_cases hn : n < 10
    · rw [if_pos hn] at hc
      rcases List.mem_cons.mp hc with rfl | hc2
      · simp only [isDigitC, decide_eq_true_eq]
        rw [toNat_ofNat_valid (by omega)]
        omega
      · exact hacc c hc2
    · rw [if_neg hn] at hc
      refine ih (n / 10) _ ?_ c hc
      intro x hx
      rcases List.mem_cons.mp hx with rfl | hx2
      · simp only [isDigitC, decide_eq_true_eq]
        rw [toNat_ofNat_valid (by omega)]
        have hlt := Nat.mod_lt n (by omega : 0 < 10)
        omega
      · exact hacc x hx2

theorem natDec_digits (n : Nat) : ∀ c ∈ natDec n, isDigitC c = true :=
  natDecGo_digits (n + 1) n [] (by intro c hc; simp at hc)

theorem natDecGo_head : ∀ f n acc, n + 1 ≤ f → 1 ≤ n →
    ∃ c cs, natDecGo f n acc = c :: cs ∧ c ≠ '0' := by
  intro f
  induction f with
  | zero => intro n acc h1 h2; omega
  | succ f ih =>
    intro n acc h1 h2
    simp only [natDecGo]
    by_cases hn : n < 10
    · rw [if_pos hn]
      refine ⟨Char.ofNat (48 + n), acc, rfl, ?_⟩
      intro he
      have h3 := congrArg Char.toNat he
      rw [toNat_ofNat_valid (by omega)] at h3
      have h4 : ('0' : Char).toNat = 48 := by decide
      rw [h4] at h3
      omega
    · rw [if_neg hn]
      exact ih (n / 10) _ (by omega) (by omega)

theorem natDec_head (n : Nat) (h : 1 ≤ n) :
    ∃ c cs, natDec n = c :: cs ∧ c ≠ '0' :=
  natDecGo_head (n + 1) n [] (Nat.le_refl _) h

theorem monthName_no_space {m : Nat} (h1 : 1 ≤ m) (h2 : m ≤ 12) :
    ∀ c ∈ monthName m, c ≠ ' ' := by
  have hm : m = 1 ∨ m = 2 ∨ m = 3 ∨ m = 4 ∨ m = 5 ∨ m = 6 ∨ m = 7 ∨ m = 8 ∨
      m = 9 ∨ m = 10 ∨ m = 11 ∨ m = 12 := by omega
  rcases hm with rfl | rfl | rfl | rfl | rfl | rfl | rfl | rfl | rfl | rfl | rfl | rfl <;>
    decide

/-- The ` 0` replacement on the strftime output removes exactly the zero pad
of the day: month names have no spaces, digit runs have no spaces, and the
year never starts with `0`. -/
theorem stripZero_fmt {y m d : Nat} (hm1 : 1 ≤ m) (hm2 : m ≤ 12) (hy : 1 ≤ y) :
    stripZero (fmtMDY y m d) =
      monthName m ++ (' ' :: natDec d) ++ (',' :: ' ' :: natDec y) := by
  have hM := monthName_no_space hm1 hm2
  have hdigy := natDec_digits y
  have hdigd := natDec_digits d
  obtain ⟨cy, csy, hcy, hcy0⟩ := natDec_head y hy
  have hR : stripZero (',' :: ' ' :: natDec y) = ',' :: ' ' :: natDec y := by
    rw [stripZero_cons2_neg _ (fun hpair => absurd hpair.1 (by decide)), hcy,
      stripZero_cons2_neg _ (fun hpair => hcy0 hpair.2), ← hcy,
      stripZero_of_digits hdigy]
  have hshape : fmtMDY y m d =
      monthName m ++ (' ' :: (pad2 d ++ (',' :: ' ' :: natDec y))) := by
    simp [fmtMDY, List.append_assoc]
  rw [hshape, stripZero_append_no_space hM]
  by_cases hd : d < 10
  · rw [show pad2 d = '0' :: natDec d from by simp [pad2, hd], List.cons_append,
      stripZero_cons2_pos, stripZero_append_digits hdigd, hR]
    simp [List.append_assoc]
  · obtain ⟨cd, csd, hcd, hcd0⟩ := natDec_head d (by omega)
    rw [show pad2 d = natDec d from by simp [pad2, hd], hcd, List.cons_append,
      stripZero_cons2_neg _ (fun hpair => hcd0 hpair.2), ← List.cons_append,
      ← hcd, stripZero_append_digits hdigd, hR]
    simp [List.append_assoc]

theorem monthOfAbbr_sound {k : List Char} {m : Nat} (h : monthOfAbbr k = some m) :
    1 ≤ m ∧ m ≤ 12 := by
  have hmem : (k, m) ∈ monthAbbrevTable := by
    rw [monthOfAbbr, List.lookup_eq_some_iff] at h
    obtain ⟨l₁, l₂, heq, -⟩ := h
    rw [heq]
    exact List.mem_append.mpr (Or.inr (List.mem_cons_self _ _))
  have hall : ∀ p ∈ monthAbbrevTable, 1 ≤ p.2 ∧ p.2 ≤ 12 := by decide
  exact hall (k, m) hmem

theorem parseMonAbbr_sound {t : List Char} {m : Nat} {r : List Char}
    (h : parseMonAbbr t = some (m, r)) : 1 ≤ m ∧ m ≤ 12 := by
  match t with
  | [] => exact Option.noConfusion h
  | [c1] => exact Option.noConfusion h
  | [c1, c2] => exact Option.noConfusion h
  | c1 :: c2 :: c3 :: rest =>
    simp only [parseMonAbbr, Option.map_eq_some'] at h
    obtain ⟨m2, hm2, he⟩ := h
    simp only [Prod.mk.injEq] at he
    obtain ⟨rfl, -⟩ := he
    exact monthOfAbbr_sound hm2

theorem yearOfY2_ge (y2 : Nat) : 1 ≤ yearOfY2 y2 := by
  simp only [yearOfY2]
  split_ifs <;> omega

theorem parseDMY_sound {s : List Char} {d m y : Nat}
    (h : parseDMY s = some (d, m, y)) : 1 ≤ m ∧ m ≤ 12 ∧ 1 ≤ y := by
  simp only [parseDMY, Option.bind_eq_some] at h
  obtain ⟨p1, hp1, t2, ht2, p2, hp2, t4, ht4, p3, hp3, hfin⟩ := h
  split_ifs at hfin with hc
  · simp only [Option.some.injEq, Prod.mk.injEq] at hfin
    obtain ⟨-, rfl, rfl⟩ := hfin
    have hp2' : parseMonAbbr t2 = some (p2.1, p2.2) := hp2
    obtain ⟨hm1, hm2⟩ := parseMonAbbr_sound hp2'
    exact ⟨hm1, hm2, yearOfY2_ge p3.1⟩

theorem parseMonth_sound {t : List Char} {m : Nat} {r : List Char}
    (h : parseMonth t = some (m, r)) : 1 ≤ m ∧ m ≤ 12 := by
  match t with
  | [] => exact Option.noConfusion h
  | [c1] =>
    simp only [parseMonth] at h
    split_ifs at h with h1
    · simp only [Option.some.injEq, Prod.mk.injEq] at h
      obtain ⟨rfl, -⟩ := h
      simp only [isDigitC, decide_eq_true_eq] at h1
      simp only [digitVal] at h1 ⊢
      omega
  | c1 :: c2 :: rest =>
    simp only [parseMonth] at h
    split_ifs at h with h1 h2
    · simp only [Option.some.injEq, Prod.mk.injEq] at h
      obtain ⟨rfl, -⟩ := h
      omega
    · simp only [Option.some.injEq, Prod.mk.injEq] at h
      obtain ⟨rfl, -⟩ := h
      simp only [isDigitC, decide_eq_true_eq] at h2
      simp only [digitVal] at h2 ⊢
      omega

theorem parseYmdHMS_sound {s : List Char} {y m d : Nat}
    (h : parseYmdHMS s = some (y, m, d)) : 1 ≤ m ∧ m ≤ 12 ∧ 1 ≤ y := by
  simp only [parseYmdHMS, Option.bind_eq_some] at h
  obtain ⟨py, hpy, t2, ht2, pm, hpm, t4, ht4, pd, hpd, t6, ht6, ph, hph,
    t8, ht8, pmin, hpmin, t10, ht10, ps, hps, hfin⟩ := h
  split_ifs at hfin with hc
  · simp only [Option.some.injEq, Prod.mk.injEq] at hfin
    obtain ⟨rfl, rfl, -⟩ := hfin
    obtain ⟨hm1, hm2⟩ := parseMonth_sound hpm
    exact ⟨hm1, hm2, hc.2.1⟩

/-- C4: a string parsed by the `%d-%b-%y` format, or failing that by the
`%Y-%m-%d %H:%M:%S` format, converts to month name, unpadded day, comma,
year; a string matching neither format is returned unchanged. -/
theorem convert_date_spec (s : List Char) :
    (∀ d m y, parseDMY s = some (d, m, y) →
      convert_date s = monthName m ++ (' ' :: natDec d) ++ (',' :: ' ' :: natDec y)) ∧
    (∀ y m d, parseDMY s = none → parseYmdHMS s = some (y, m, d) →
      convert_date s = monthName m ++ (' ' :: natDec d) ++ (',' :: ' ' :: natDec y)) ∧
    (parseDMY s = none → parseYmdHMS s = none → convert_date s = s) := by
  refine ⟨?_, ?_, ?_⟩
  · intro d m y h
    obtain ⟨hm1, hm2, hy⟩ := parseDMY_sound h
    simp only [convert_date, h]
    exact stripZero_fmt hm1 hm2 hy
  · intro y m d h1 h2
    obtain ⟨hm1, hm2, hy⟩ := parseYmdHMS_sound h2
    simp only [convert_date, h1, h2]
    exact stripZero_fmt hm1 hm2 hy
  · intro h1 h2
    simp [convert_date, h1, h2]

/-- Witness for C4: both formats on the date of the spec's example, an
unparseable string left unchanged, the space-day alternative of `%d`
converted, and a one-digit year rejected by `%y` and so left unchanged. -/
theorem convert_date_spec_check :
    convert_date (strL "3-Jul-25") = strL "July 3, 2025" ∧
    convert_date (strL "2025-07-03 00:00:00") = strL "July 3, 2025" ∧
    convert_date (strL "not-a-date") = strL "not-a-date" ∧
    convert_date (strL " 3-Jul-25") = strL "July 3, 2025" ∧
    convert_date (strL "3-Jul-5") = strL "3-Jul-5" := by
  have h1 := convert_date_spec (strL "3-Jul-25")
  have h2 := convert_date_spec (strL "2025-07-03 00:00:00")
  have h3 := convert_date_spec (strL "not-a-date")
  have h4 := convert_date_spec (strL " 3-Jul-25")
  have h5 := convert_date_spec (strL "3-Jul-5")
  refine ⟨(h1.1 3 7 2025 (by decide)).trans (by decide), ?_, ?_, ?_, ?_⟩
  · exact (h2.2.1 2025 7 3 (by decide) (by decide)).trans (by decide)
  · exact h3.2.2 (by decide) (by decide)
  · exact (h4.1 3 7 2025 (by decide)).trans (by decide)
  · exact h5.2.2 (by decide) (by decide)

/-! ## Correctness of the filler matcher

`IsFiller` is the declarative reading of the filler regex: the case-insensitive
phrases `hold kids hands` (with optional right single quotes and plural forms)
and `watch kids` / `watch children`. -/

/-- Nonempty run of whitespace (`\s+`). -/
def SpaceRun (w : List Char) : Prop := w ≠ [] ∧ ∀ c ∈ w, pyIsSpace c = true

/-- Lowered middle alternatives of the first filler branch. -/
def kidsMids : List (List Char) :=
  [strL "kids", strL "kids’", strL "children’", strL "children’s"]

/-- Declarative reading of `[Hh]old\s+(?:kids’?|children’s?)\s+hands?`. -/
def IsFillerA (w : List Char) : Prop :=
  ∃ hw s1 mid s2 tl, w = hw ++ s1 ++ mid ++ s2 ++ tl ∧
    lowerStr hw = strL "hold" ∧ SpaceRun s1 ∧ lowerStr mid ∈ kidsMids ∧
    SpaceRun s2 ∧ (lowerStr tl = strL "hand" ∨ lowerStr tl = strL "hands")

/-- Declarative reading of `watch\s+(?:kids|children)`. -/
def IsFillerB (w : List Char) : Prop :=
  ∃ hw s1 mid, w = hw ++ s1 ++ mid ∧ lowerStr hw = strL "watch" ∧ SpaceRun s1 ∧
    (lowerStr mid = strL "kids" ∨ lowerStr mid = strL "children")

/-- A filler phrase occurrence. -/
def IsFiller (w : List Char) : Prop := IsFillerA w ∨ IsFillerB w

theorem IsFiller_ne_nil {w : List Char} (h : IsFiller w) : w ≠ [] := by
  rcases h with ⟨hw, s1, mid, s2, tl, rfl, hh, -⟩ | ⟨hw, s1, mid, rfl, hh, -⟩ <;>
    · intro he
      simp only [List.append_eq_nil] at he
      rw [show hw = [] from by tauto] at hh
      exact absurd hh (by decide)

theorem eatCI_sound : ∀ lit t r, eatCI lit t = some r →
    ∃ u, t = u ++ r ∧ lowerStr u = lit := by
  intro lit
  induction lit with
  | nil =>
    intro t r h
    simp only [eatCI, Option.some.injEq] at h
    exact ⟨[], by rw [h]; rfl, rfl⟩
  | cons l ls ih =>
    intro t r h
    cases t with
    | nil => exact Option.noConfusion h
    | cons c cs =>
      simp only [eatCI] at h
      split_ifs at h with hc
      obtain ⟨u, hu, hlu⟩ := ih cs r h
      refine ⟨c :: u, by rw [hu, List.cons_append], ?_⟩
      simp only [lowerStr, List.map_cons] at hlu ⊢
      rw [hc, hlu]

theorem eatCI_complete : ∀ lit u v, lowerStr u = lit →
    eatCI lit (u ++ v) = some v := by
  intro lit
  induction lit with
  | nil =>
    intro u v h
    have hu : u = [] := by simpa [lowerStr] using h
    rw [hu]
    rfl
  | cons l ls ih =>
    intro u v h
    simp only [lowerStr] at h
    rw [List.map_eq_cons_iff] at h
    obtain ⟨c, u', rfl, hc, hu'⟩ := h
    rw [List.cons_append]
    simp only [eatCI]
    rw [if_pos hc]
    exact ih u' v hu'

theorem eatSp_sound {t r : List Char} (h : eatSp t = some r) :
    ∃ u, t = u ++ r ∧ SpaceRun u ∧
      (r = [] ∨ ∃ c cs, r = c :: cs ∧ pyIsSpace c = false) := by
  cases t with
  | nil => exact Option.noConfusion h
  | cons c cs =>
    simp only [eatSp] at h
    split_ifs at h with hc
    simp only [Option.some.injEq] at h
    refine ⟨c :: cs.takeWhile pyIsSpace, ?_, ?_, ?_⟩
    · rw [← h, List.cons_append, List.takeWhile_append_dropWhile]
    · refine ⟨by simp, ?_⟩
      intro x hx
      rcases List.mem_cons.mp hx with rfl | hx2
      · exact hc
      · exact List.mem_takeWhile_imp hx2
    · rw [← h]
      rcases dropWhile_head_false pyIsSpace cs with hd | ⟨d, ds, hd, hdf⟩
      · exact Or.inl hd
      · exact Or.inr ⟨d, ds, hd, hdf⟩

theorem eatSp_complete {u v : List Char} (hu : SpaceRun u)
    (hv : v = [] ∨ ∃ c cs, v = c :: cs ∧ pyIsSpace c = false) :
    eatSp (u ++ v) = some v := by
  obtain ⟨hne, hsp⟩ := hu
  cases u with
  | nil => exact absurd rfl hne
  | cons c cs =>
    rw [List.cons_append]
    simp only [eatSp]
    rw [if_pos (hsp c (List.mem_cons_self c cs))]
    congr 1
    rw [List.dropWhile_append_of_pos (fun x hx => hsp x (List.mem_cons_of_mem c hx))]
    rcases hv with rfl | ⟨d, ds, rfl, hdf⟩
    · rfl
    · exact List.dropWhile_cons_of_neg (by simp [hdf])

theorem tryOpt_sound {x : Char} {cont : List Char → Option (List Char)}
    {t r : List Char} (h : tryOpt x cont t = some r) :
    cont t = some r ∨ ∃ c cs, t = c :: cs ∧ c.toLower = x ∧ cont cs = some r := by
  cases t with
  | nil => exact Or.inl h
  | cons c cs =>
    simp only [tryOpt] at h
    split_ifs at h with hc
    · cases hcc : cont cs with
      | some v =>
        rw [hcc] at h
        simp only [Option.orElse] at h
        exact Or.inr ⟨c, cs, rfl, hc, by rw [hcc, h]⟩
      | none =>
        rw [hcc] at h
        simp only [Option.orElse] at h
        exact Or.inl h
    · exact Or.inl h

theorem toLower_eq_of_not_lower {x d : Char} (h : x.toLower = d)
    (hd : ¬(97 ≤ d.toNat ∧ d.toNat ≤ 122)) : x = d := by
  have h2 := toNat_toLower x
  rw [h] at h2
  by_cases hc : x.toNat ≥ 65 ∧ x.toNat ≤ 90
  · rw [if_pos hc] at h2
    exact absurd ⟨by omega, by omega⟩ hd
  · rw [if_neg hc] at h2
    exact (char_toNat_inj h2).symm

theorem pyIsSpace_of_toLower {x d : Char} (h : x.toLower = d) :
    pyIsSpace x = pyIsSpace d := by
  rw [← pyIsSpace_toLower, h]

theorem space_toLower_ne {c d : Char} (hsp : pyIsSpace c = true)
    (hd : pyIsSpace d = false) : c.toLower ≠ d := by
  intro h
  rw [← pyIsSpace_of_toLower h, hsp] at hd
  exact Bool.noConfusion hd

theorem matchHandTail_sound {t r : List Char} (h : matchHandTail t = some r) :
    ∃ s2 tl, t = s2 ++ (tl ++ r) ∧ SpaceRun s2 ∧
      (lowerStr tl = strL "hand" ∨ lowerStr tl = strL "hands") := by
  simp only [matchHandTail, Option.bind_eq_some] at h
  obtain ⟨t1, hsp, t2, hci, h⟩ := h
  obtain ⟨s2, hteq, hs2, -⟩ := eatSp_sound hsp
  obtain ⟨u, ht1, hu⟩ := eatCI_sound _ _ _ hci
  cases t2 with
  | nil =>
    simp only [handsOpt, Option.some.injEq] at h
    subst h
    refine ⟨s2, u, ?_, hs2, Or.inl hu⟩
    rw [hteq, ht1]
  | cons c cs =>
    simp only [handsOpt] at h
    split_ifs at h with hc
    · simp only [Option.some.injEq] at h
      subst h
      refine ⟨s2, u ++ [c], ?_, hs2, Or.inr ?_⟩
      · rw [hteq, ht1]
        simp [List.append_assoc]
      · simp only [lowerStr, List.map_append, List.map_cons, List.map_nil]
        simp only [lowerStr] at hu
        rw [hu, hc]
        decide
    · simp only [Option.some.injEq] at h
      subst h
      refine ⟨s2, u, ?_, hs2, Or.inl hu⟩
      rw [hteq, ht1]

theorem kidsAlt_sound {t2 r : List Char} (h : kidsAlt t2 = some r) :
    ∃ mid s2 tl, t2 = mid ++ (s2 ++ (tl ++ r)) ∧ lowerStr mid ∈ kidsMids ∧
      SpaceRun s2 ∧ (lowerStr tl = strL "hand" ∨ lowerStr tl = strL "hands") := by
  simp only [kidsAlt, Option.bind_eq_some] at h
  obtain ⟨t3, hk, h⟩ := h
  obtain ⟨k, ht2, hk2⟩ := eatCI_sound _ _ _ hk
  rcases tryOpt_sound h with hcont | ⟨c, cs, rfl, hc, hcont⟩
  · obtain ⟨s2, tl, ht3, hs2, htl⟩ := matchHandTail_sound hcont
    refine ⟨k, s2, tl, ?_, ?_, hs2, htl⟩
    · rw [ht2, ht3]
    · rw [hk2]
      simp [kidsMids]
  · obtain ⟨s2, tl, hcs, hs2, htl⟩ := matchHandTail_sound hcont
    refine ⟨k ++ [c], s2, tl, ?_, ?_, hs2, htl⟩
    · rw [ht2, hcs]
      simp
    · have hlow : lowerStr (k ++ [c]) = strL "kids’" := by
        simp only [lowerStr, List.map_append, List.map_cons, List.map_nil]
        simp only [lowerStr] at hk2
        rw [hk2, hc]
        decide
      rw [hlow]
      simp [kidsMids]

theorem childrenAlt_sound {t2 r : List Char} (h : childrenAlt t2 = some r) :
    ∃ mid s2 tl, t2 = mid ++ (s2 ++ (tl ++ r)) ∧ lowerStr mid ∈ kidsMids ∧
      SpaceRun s2 ∧ (lowerStr tl = strL "hand" ∨ lowerStr tl = strL "hands") := by
  simp only [childrenAlt, Option.bind_eq_some] at h
  obtain ⟨t3, hk, h⟩ := h
  obtain ⟨k, ht2, hk2⟩ := eatCI_sound _ _ _ hk
  cases t3 with
  | nil => exact Option.noConfusion h
  | cons c cs =>
    simp only [childTail] at h
    split_ifs at h with hc
    subst hc
    rcases tryOpt_sound h with hcont | ⟨c2, cs2, rfl, hc2, hcont⟩
    · obtain ⟨s2, tl, hcs, hs2, htl⟩ := matchHandTail_sound hcont
      refine ⟨k ++ ['’'], s2, tl, ?_, ?_, hs2, htl⟩
      · rw [ht2, hcs]
        simp
      · have hlow : lowerStr (k ++ ['’']) = strL "children’" := by
          simp only [lowerStr, List.map_append, List.map_cons, List.map_nil]
          simp only [lowerStr] at hk2
          rw [hk2]
          decide
        rw [hlow]
        simp [kidsMids]
    · obtain ⟨s2, tl, hcs2, hs2, htl⟩ := matchHandTail_sound hcont
      refine ⟨k ++ ['’', c2], s2, tl, ?_, ?_, hs2, htl⟩
      · rw [ht2, hcs2]
        simp
      · have hlow : lowerStr (k ++ ['’', c2]) = strL "children’s" := by
          simp only [lowerStr, List.map_append, List.map_cons, List.map_nil]
          simp only [lowerStr] at hk2
          rw [hk2, hc2]
          decide
        rw [hlow]
        simp [kidsMids]

theorem matchFillerA_sound {t r : List Char} (h : matchFillerA t = some r) :
    ∃ w, t = w ++ r ∧ IsFillerA w := by
  simp only [matchFillerA, Option.bind_eq_some] at h
  obtain ⟨t1, hh, t2, hsp, h⟩ := h
  obtain ⟨hw, hteq, hhw⟩ := eatCI_sound _ _ _ hh
  obtain ⟨s1, ht1, hs1, -⟩ := eatSp_sound hsp
  have hmid : ∃ mid s2 tl, t2 = mid ++ (s2 ++ (tl ++ r)) ∧
      lowerStr mid ∈ kidsMids ∧ SpaceRun s2 ∧
      (lowerStr tl = strL "hand" ∨ lowerStr tl = strL "hands") := by
    cases hka : kidsAlt t2 with
    | some r2 =>
      rw [hka] at h
      simp only [Option.orElse, Option.some.injEq] at h
      subst h
      exact kidsAlt_sound hka
    | none =>
      rw [hka] at h
      simp only [Option.orElse] at h
      exact childrenAlt_sound h
  obtain ⟨mid, s2, tl, ht2, hmids, hs2, htl⟩ := hmid
  refine ⟨hw ++ s1 ++ mid ++ s2 ++ tl, ?_, hw, s1, mid, s2, tl, rfl,
    hhw, hs1, hmids, hs2, htl⟩
  rw [hteq, ht1, ht2]
  simp [List.append_assoc]

theorem matchFillerB_sound {t r : List Char} (h : matchFillerB t = some r) :
    ∃ w, t = w ++ r ∧ IsFillerB w := by
  simp only [matchFillerB, Option.bind_eq_some] at h
  obtain ⟨t1, hh, t2, hsp, h⟩ := h
  obtain ⟨hw, hteq, hhw⟩ := eatCI_sound _ _ _ hh
  obtain ⟨s1, ht1, hs1, -⟩ := eatSp_sound hsp
  have hmid : ∃ mid, t2 = mid ++ r ∧
      (lowerStr mid = strL "kids" ∨ lowerStr mid = strL "children") := by
    cases hka : eatCI (strL "kids") t2 with
    | some r2 =>
      rw [hka] at h
      simp only [Option.orElse, Option.some.injEq] at h
      subst h
      obtain ⟨mid, hm, hml⟩ := eatCI_sound _ _ _ hka
      exact ⟨mid, hm, Or.inl hml⟩
    | none =>
      rw [hka] at h
      simp only [Option.orElse] at h
      obtain ⟨mid, hm, hml⟩ := eatCI_sound _ _ _ h
      exact ⟨mid, hm, Or.inr hml⟩
  obtain ⟨mid, ht2, hmid2⟩ := hmid
  refine ⟨hw ++ s1 ++ mid, ?_, hw, s1, mid, rfl, hhw, hs1, hmid2⟩
  rw [hteq, ht1, ht2]
  simp [List.append_assoc]

theorem matchFiller_sound {t r : List Char} (h : matchFiller t = some r) :
    ∃ w, t = w ++ r ∧ IsFiller w := by
  simp only [matchFiller] at h
  cases ha : matchFillerA t with
  | some r2 =>
    rw [ha] at h
    simp only [Option.orElse, Option.some.injEq] at h
    subst h
    obtain ⟨w, ht, hA⟩ := matchFillerA_sound ha
    exact ⟨w, ht, Or.inl hA⟩
  | none =>
    rw [ha] at h
    simp only [Option.orElse] at h
    obtain ⟨w, ht, hB⟩ := matchFillerB_sound h
    exact ⟨w, ht, Or.inr hB⟩

theorem lower_decomp_cons {s : List Char} {d : Char} {lit : List Char}
    (h : lowerStr s = d :: lit) :
    ∃ c s', s = c :: s' ∧ c.toLower = d ∧ lowerStr s' = lit := by
  simp only [lowerStr] at h ⊢
  rw [List.map_eq_cons_iff] at h
  exact h

theorem lower_decomp_append {s l1 l2 : List Char} (h : lowerStr s = l1 ++ l2) :
    ∃ u w, s = u ++ w ∧ lowerStr u = l1 ∧ lowerStr w = l2 := by
  simp only [lowerStr] at h ⊢
  rw [List.map_eq_append_iff] at h
  exact h

theorem lower_single {s : List Char} {d : Char} (h : lowerStr s = [d]) :
    ∃ c, s = [c] ∧ c.toLower = d := by
  obtain ⟨c, s', rfl, hc, hs'⟩ := lower_decomp_cons h
  have : s' = [] := by simpa [lowerStr] using hs'
  exact ⟨c, by rw [this], hc⟩

theorem spaceRun_head {s2 : List Char} (h : SpaceRun s2) :
    ∃ c cs, s2 = c :: cs ∧ pyIsSpace c = true := by
  obtain ⟨hne, hsp⟩ := h
  cases s2 with
  | nil => exact absurd rfl hne
  | cons c cs => exact ⟨c, cs, rfl, hsp c (List.mem_cons_self c cs)⟩

theorem handsOpt_isSome (t2 : List Char) : (handsOpt t2).isSome = true := by
  cases t2 with
  | nil => rfl
  | cons c cs =>
    simp only [handsOpt]
    split_ifs <;> rfl

theorem matchHandTail_complete {s2 tl : List Char} (hs2 : SpaceRun s2)
    (htl : lowerStr tl = strL "hand" ∨ lowerStr tl = strL "hands")
    (v : List Char) : (matchHandTail (s2 ++ (tl ++ v))).isSome = true := by
  have htl_cons : ∃ d tl', tl = d :: tl' ∧ d.toLower = 'h' := by
    rcases htl with h | h
    · obtain ⟨d, tl', rfl, hd, -⟩ :=
        lower_decomp_cons (by rw [h]; rfl : lowerStr tl = 'h' :: strL "and")
      exact ⟨d, tl', rfl, hd⟩
    · obtain ⟨d, tl', rfl, hd, -⟩ :=
        lower_decomp_cons (by rw [h]; rfl : lowerStr tl = 'h' :: strL "ands")
      exact ⟨d, tl', rfl, hd⟩
  obtain ⟨d, tl', rfl, hd⟩ := htl_cons
  have hdns : pyIsSpace d = false := by
    rw [pyIsSpace_of_toLower hd]
    decide
  have h1 : eatSp (s2 ++ (d :: tl' ++ v)) = some (d :: tl' ++ v) :=
    eatSp_complete hs2 (Or.inr ⟨d, tl' ++ v, by rw [List.cons_append], hdns⟩)
  simp only [matchHandTail, h1, Option.some_bind]
  rcases htl with h | h
  · rw [show (d :: tl') ++ v = (d :: tl') ++ v from rfl, eatCI_complete _ _ v h,
      Option.some_bind]
    exact handsOpt_isSome v
  · obtain ⟨u, wend, hsplit, hu, hw⟩ :=
      lower_decomp_append (by rw [h]; rfl :
        lowerStr (d :: tl') = strL "hand" ++ strL "s")
    obtain ⟨e, rfl, he⟩ := lower_single hw
    rw [show (d :: tl') ++ v = u ++ ([e] ++ v) from by rw [hsplit]; simp,
      eatCI_complete _ _ _ hu, Option.some_bind]
    simp only [List.singleton_append, handsOpt]
    rw [if_pos he]
    rfl

theorem kidsAlt_complete {mid s2 tl : List Char}
    (hmid : lowerStr mid = strL "kids" ∨ lowerStr mid = strL "kids’")
    (hs2 : SpaceRun s2)
    (htl : lowerStr tl = strL "hand" ∨ lowerStr tl = strL "hands")
    (v : List Char) :
    (kidsAlt (mid ++ (s2 ++ (tl ++ v)))).isSome = true := by
  obtain ⟨c0, s2', hs2eq, hsp0⟩ := spaceRun_head hs2
  rcases hmid with hmid | hmid
  · simp only [kidsAlt]
    rw [eatCI_complete _ _ _ hmid, Option.some_bind]
    rw [hs2eq, List.cons_append]
    simp only [tryOpt]
    rw [if_neg (space_toLower_ne hsp0 (by decide))]
    rw [← List.cons_append, ← hs2eq]
    exact matchHandTail_complete hs2 htl v
  · obtain ⟨u, wend, hsplit, hu, hw⟩ :=
      lower_decomp_append (by rw [hmid]; rfl :
        lowerStr mid = strL "kids" ++ strL "’")
    obtain ⟨e, rfl, he⟩ := lower_single hw
    simp only [kidsAlt]
    rw [show mid ++ (s2 ++ (tl ++ v)) = u ++ ([e] ++ (s2 ++ (tl ++ v))) from by
      rw [hsplit]; simp, eatCI_complete _ _ _ hu, Option.some_bind,
      List.singleton_append]
    simp only [tryOpt]
    rw [if_pos he]
    obtain ⟨r0, hr0⟩ := Option.isSome_iff_exists.mp
      (matchHandTail_complete hs2 htl v)
    rw [hr0]
    rfl

theorem childrenAlt_complete {mid s2 tl : List Char}
    (hmid : lowerStr mid = strL "children’" ∨ lowerStr mid = strL "children’s")
    (hs2 : SpaceRun s2)
    (htl : lowerStr tl = strL "hand" ∨ lowerStr tl = strL "hands")
    (v : List Char) :
    (childrenAlt (mid ++ (s2 ++ (tl ++ v)))).isSome = true := by
  obtain ⟨c0, s2', hs2eq, hsp0⟩ := spaceRun_head hs2
  rcases hmid with hmid | hmid
  · obtain ⟨u, wend, hsplit, hu, hw⟩ :=
      lower_decomp_append (by rw [hmid]; rfl :
        lowerStr mid = strL "children" ++ strL "’")
    obtain ⟨e, rfl, he⟩ := lower_single hw
    have he2 : e = '’' := toLower_eq_of_not_lower he (by decide)
    subst he2
    simp only [childrenAlt]
    rw [show mid ++ (s2 ++ (tl ++ v)) = u ++ (['’'] ++ (s2 ++ (tl ++ v))) from by
      rw [hsplit]; simp, eatCI_complete _ _ _ hu, Option.some_bind,
      List.singleton_append]
    simp only [childTail, if_true]
    rw [hs2eq, List.cons_append]
    simp only [tryOpt]
    rw [if_neg (space_toLower_ne hsp0 (by decide))]
    rw [← List.cons_append, ← hs2eq]
    exact matchHandTail_complete hs2 htl v
  · obtain ⟨u, wend, hsplit, hu, hw⟩ :=
      lower_decomp_append (by rw [hmid]; rfl :
        lowerStr mid = strL "children" ++ strL "’s")
    obtain ⟨e1, w2, hwend, he1, hw2⟩ :=
      lower_decomp_cons (by rw [hw]; rfl : lowerStr wend = '’' :: strL "s")
    obtain ⟨e2, rfl, he2⟩ := lower_single hw2
    have he1' : e1 = '’' := toLower_eq_of_not_lower he1 (by decide)
    subst he1'
    simp only [childrenAlt]
    rw [show mid ++ (s2 ++ (tl ++ v)) =
        u ++ (('’' :: [e2]) ++ (s2 ++ (tl ++ v))) from by
      rw [hsplit, hwend]; simp, eatCI_complete _ _ _ hu, Option.some_bind,
      List.cons_append, List.singleton_append]
    simp only [childTail, if_true]
    simp only [tryOpt]
    rw [if_pos he2]
    obtain ⟨r0, hr0⟩ := Option.isSome_iff_exists.mp
      (matchHandTail_complete hs2 htl v)
    rw [hr0]
    rfl

theorem matchFillerA_complete {w : List Char} (hA : IsFillerA w) (v : List Char) :
    (matchFillerA (w ++ v)).isSome = true := by
  obtain ⟨hw, s1, mid, s2, tl, rfl, hhw, hs1, hmids, hs2, htl⟩ := hA
  have hmid_head : ∃ m0 mid', mid = m0 :: mid' ∧ pyIsSpace m0 = false := by
    simp only [kidsMids, List.mem_cons, List.not_mem_nil, or_false] at hmids
    rcases hmids with hm | hm | hm | hm
    · obtain ⟨m0, mid', rfl, hm0, -⟩ :=
        lower_decomp_cons (by rw [hm]; rfl : lowerStr mid = 'k' :: strL "ids")
      exact ⟨m0, mid', rfl, by rw [pyIsSpace_of_toLower hm0]; decide⟩
    · obtain ⟨m0, mid', rfl, hm0, -⟩ :=
        lower_decomp_cons (by rw [hm]; rfl : lowerStr mid = 'k' :: strL "ids’")
      exact ⟨m0, mid', rfl, by rw [pyIsSpace_of_toLower hm0]; decide⟩
    · obtain ⟨m0, mid', rfl, hm0, -⟩ :=
        lower_decomp_cons (by rw [hm]; rfl :
          lowerStr mid = 'c' :: strL "hildren’")
      exact ⟨m0, mid', rfl, by rw [pyIsSpace_of_toLower hm0]; decide⟩
    · obtain ⟨m0, mid', rfl, hm0, -⟩ :=
        lower_decomp_cons (by rw [hm]; rfl :
          lowerStr mid = 'c' :: strL "hildren’s")
      exact ⟨m0, mid', rfl, by rw [pyIsSpace_of_toLower hm0]; decide⟩
  obtain ⟨m0, mid', hmeq, hm0⟩ := hmid_head
  have hshape : (hw ++ s1 ++ mid ++ s2 ++ tl) ++ v =
      hw ++ (s1 ++ (mid ++ (s2 ++ (tl ++ v)))) := by
    simp [List.append_assoc]
  rw [hshape]
  simp only [matchFillerA]
  rw [eatCI_complete _ _ _ hhw, Option.some_bind]
  rw [eatSp_complete hs1 (Or.inr ⟨m0, mid' ++ (s2 ++ (tl ++ v)), by
    rw [hmeq, List.cons_append], hm0⟩), Option.some_bind]
  simp only [kidsMids, List.mem_cons, List.not_mem_nil, or_false] at hmids
  rcases hmids with hm | hm | hm | hm
  · obtain ⟨r0, hr0⟩ := Option.isSome_iff_exists.mp
      (kidsAlt_complete (Or.inl hm) hs2 htl v)
    rw [hr0]
    rfl
  · obtain ⟨r0, hr0⟩ := Option.isSome_iff_exists.mp
      (kidsAlt_complete (Or.inr hm) hs2 htl v)
    rw [hr0]
    rfl
  · cases hka : kidsAlt (mid ++ (s2 ++ (tl ++ v))) with
    | some r2 => rfl
    | none =>
      simp only [Option.orElse]
      exact childrenAlt_complete (Or.inl hm) hs2 htl v
  · cases hka : kidsAlt (mid ++ (s2 ++ (tl ++ v))) with
    | some r2 => rfl
    | none =>
      simp only [Option.orElse]
      exact childrenAlt_complete (Or.inr hm) hs2 htl v

theorem matchFillerB_complete {w : List Char} (hB : IsFillerB w) (v : List Char) :
    (matchFillerB (w ++ v)).isSome = true := by
  obtain ⟨hw, s1, mid, rfl, hhw, hs1, hmid⟩ := hB
  have hmid_head : ∃ m0 mid', mid = m0 :: mid' ∧ pyIsSpace m0 = false := by
    rcases hmid with hm | hm
    · obtain ⟨m0, mid', rfl, hm0, -⟩ :=
        lower_decomp_cons (by rw [hm]; rfl : lowerStr mid = 'k' :: strL "ids")
      exact ⟨m0, mid', rfl, by rw [pyIsSpace_of_toLower hm0]; decide⟩
    · obtain ⟨m0, mid', rfl, hm0, -⟩ :=
        lower_decomp_cons (by rw [hm]; rfl :
          lowerStr mid = 'c' :: strL "hildren")
      exact ⟨m0, mid', rfl, by rw [pyIsSpace_of_toLower hm0]; decide⟩
  obtain ⟨m0, mid', hmeq, hm0⟩ := hmid_head
  have hshape : (hw ++ s1 ++ mid) ++ v = hw ++ (s1 ++ (mid ++ v)) := by
    simp [List.append_assoc]
  rw [hshape]
  simp only [matchFillerB]
  rw [eatCI_complete _ _ _ hhw, Option.some_bind]
  rw [eatSp_complete hs1 (Or.inr ⟨m0, mid' ++ v, by
    rw [hmeq, List.cons_append], hm0⟩), Option.some_bind]
  rcases hmid with hm | hm
  · rw [eatCI_complete _ _ _ hm]
    rfl
  · cases hka : eatCI (strL "kids") (mid ++ v) with
    | some r2 => rfl
    | none =>
      simp only [Option.orElse]
      rw [eatCI_complete _ _ _ hm]
      rfl

theorem matchFiller_complete {w : List Char} (hf : IsFiller w) (v : List Char) :
    (matchFiller (w ++ v)).isSome = true := by
  rcases hf with hA | hB
  · obtain ⟨r0, hr0⟩ := Option.isSome_iff_exists.mp (matchFillerA_complete hA v)
    simp only [matchFiller]
    rw [hr0]
    rfl
  · simp only [matchFiller]
    cases ha : matchFillerA (w ++ v) with
    | some r2 => rfl
    | none =>
      simp only [Option.orElse]
      exact matchFillerB_complete hB v

theorem matchFiller_length {t r : List Char} (h : matchFiller t = some r) :
    r.length < t.length := by
  obtain ⟨w, rfl, hw⟩ := matchFiller_sound h
  have : w ≠ [] := IsFiller_ne_nil hw
  have : 0 < w.length := List.length_pos.mpr this
  simp [List.length_append]
  omega

/-- The kept text arises from the scanned text by deleting whole segments,
each a filler occurrence, and keeping every other character. -/
inductive Deletes : List Char → List Char → Prop where
  | nil : Deletes [] []
  | keep (c : Char) {t r : List Char} : Deletes t r → Deletes (c :: t) (c :: r)
  | del {w t r : List Char} : IsFiller w → Deletes t r → Deletes (w ++ t) r

theorem removeFillerGo_deletes : ∀ f t, t.length ≤ f →
    Deletes t (removeFillerGo f t) := by
  intro f
  induction f with
  | zero =>
    intro t ht
    have hnil : t = [] := List.length_eq_zero.mp (Nat.le_zero.mp ht)
    subst hnil
    exact Deletes.nil
  | succ f ih =>
    intro t ht
    cases t with
    | nil => exact Deletes.nil
    | cons c cs =>
      cases hm : matchFiller (c :: cs) with
      | some rest =>
        have hgo : removeFillerGo (f + 1) (c :: cs) = removeFillerGo f rest := by
          simp only [removeFillerGo, hm]
        rw [hgo]
        obtain ⟨w, hw, hfil⟩ := matchFiller_sound hm
        rw [hw]
        have hlen : rest.length ≤ f := by
          have h2 := matchFiller_length hm
          simp only [List.length_cons] at h2 ht
          omega
        exact Deletes.del hfil (ih rest hlen)
      | none =>
        have hgo : removeFillerGo (f + 1) (c :: cs) = c :: removeFillerGo f cs := by
          simp only [removeFillerGo, hm]
        rw [hgo]
        refine Deletes.keep c (ih cs ?_)
        simp only [List.length_cons] at ht
        omega

theorem removeFiller_deletes (t : List Char) : Deletes t (removeFiller t) :=
  removeFillerGo_deletes t.length t (Nat.le_refl _)

theorem removeFillerGo_length : ∀ f t, (removeFillerGo f t).length ≤ t.length := by
  intro f
  induction f with
  | zero => intro t; exact Nat.le_refl _
  | succ f ih =>
    intro t
    cases t with
    | nil => simp [removeFillerGo]
    | cons c cs =>
      cases hm : matchFiller (c :: cs) with
      | some rest =>
        have hgo : removeFillerGo (f + 1) (c :: cs) = removeFillerGo f rest := by
          simp only [removeFillerGo, hm]
        rw [hgo]
        have h1 := ih rest
        have h2 := matchFiller_length hm
        simp only [List.length_cons] at h2 ⊢
        omega
      | none =>
        have hgo : removeFillerGo (f + 1) (c :: cs) = c :: removeFillerGo f cs := by
          simp only [removeFillerGo, hm]
        rw [hgo]
        have h1 := ih cs
        simp only [List.length_cons]
        omega

theorem occ_nil_absurd {v : List Char} (hv : IsFiller v)
    {u w : List Char} (h : ([] : List Char) = u ++ v ++ w) : False := by
  have h2 := h.symm
  simp only [List.append_eq_nil] at h2
  exact IsFiller_ne_nil hv h2.1.2

theorem removeFillerGo_no_occ : ∀ f t, t.length ≤ f →
    (¬ ∃ u v w, t = u ++ v ++ w ∧ IsFiller v) → removeFillerGo f t = t := by
  intro f
  induction f with
  | zero => intro t _ _; rfl
  | succ f ih =>
    intro t ht hnocc
    cases t with
    | nil => rfl
    | cons c cs =>
      cases hm : matchFiller (c :: cs) with
      | some rest =>
        exfalso
        obtain ⟨w, hw, hfil⟩ := matchFiller_sound hm
        exact hnocc ⟨[], w, rest, by rw [hw]; rfl, hfil⟩
      | none =>
        have hgo : removeFillerGo (f + 1) (c :: cs) = c :: removeFillerGo f cs := by
          simp only [removeFillerGo, hm]
        rw [hgo, ih cs (by simp only [List.length_cons] at ht; omega) ?_]
        intro ⟨u, v, w2, hocc, hfil⟩
        exact hnocc ⟨c :: u, v, w2, by rw [hocc]; rfl, hfil⟩

theorem removeFillerGo_occ_ne : ∀ f t, t.length ≤ f →
    (∃ u v w, t = u ++ v ++ w ∧ IsFiller v) → removeFillerGo f t ≠ t := by
  intro f
  induction f with
  | zero =>
    intro t ht hocc
    have hnil : t = [] := List.length_eq_zero.mp (Nat.le_zero.mp ht)
    subst hnil
    obtain ⟨u, v, w2, hocc, hfil⟩ := hocc
    exact absurd (occ_nil_absurd hfil hocc) (by simp)
  | succ f ih =>
    intro t ht hocc
    cases t with
    | nil =>
      obtain ⟨u, v, w2, hocc, hfil⟩ := hocc
      exact absurd (occ_nil_absurd hfil hocc) (by simp)
    | cons c cs =>
      cases hm : matchFiller (c :: cs) with
      | some rest =>
        have hgo : removeFillerGo (f + 1) (c :: cs) = removeFillerGo f rest := by
          simp only [removeFillerGo, hm]
        rw [hgo]
        intro heq
        have h1 := removeFillerGo_length f rest
        have h2 := matchFiller_length hm
        have h3 := congrArg List.length heq
        simp only [List.length_cons] at h2 h3
        omega
      | none =>
        have hgo : removeFillerGo (f + 1) (c :: cs) = c :: removeFillerGo f cs := by
          simp only [removeFillerGo, hm]
        rw [hgo]
        obtain ⟨u, v, w2, hocc, hfil⟩ := hocc
        cases u with
        | nil =>
          exfalso
          simp only [List.nil_append] at hocc
          have hs := matchFiller_complete hfil w2
          rw [← hocc, hm] at hs
          exact Bool.noConfusion hs
        | cons u0 u' =>
          rw [List.cons_append] at hocc
          have hc : c = u0 ∧ cs = u' ++ (v ++ w2) := by
            have h1 := congrArg (fun l => l.head?) hocc
            have h2 := congrArg (fun l => l.tail) hocc
            simp at h1 h2
            exact ⟨h1, h2⟩
          obtain ⟨rfl, hcs⟩ := hc
          have hne := ih cs (by simp only [List.length_cons] at ht; omega)
            ⟨u', v, w2, hcs.trans (List.append_assoc u' v w2).symm, hfil⟩
          intro heq
          have h3 : removeFillerGo f cs = cs := by
            have := congrArg (fun l => l.tail) heq
            simpa using this
          exact hne h3

theorem removeFiller_eq_iff (t : List Char) :
    removeFiller t = t ↔ ¬ ∃ u v w, t = u ++ v ++ w ∧ IsFiller v := by
  constructor
  · intro heq hocc
    exact removeFillerGo_occ_ne t.length t (Nat.le_refl _) hocc heq
  · intro hnocc
    exact removeFillerGo_no_occ t.length t (Nat.le_refl _) hnocc

/-- C8: the text that process_notes splits arises from the notes by deleting
segments that are each a case-insensitive filler-phrase occurrence; the
removal scan leaves the text unchanged exactly when no occurrence is present;
and when the text remaining after removal and trimming is empty the output is
the default pair. -/
theorem process_notes_removes_filler (s : List Char) :
    Deletes s (removeFiller s) ∧
    (removeFiller s = s ↔ ¬ ∃ u v w, s = u ++ v ++ w ∧ IsFiller v) ∧
    (pyStrip (removeFiller s) = [] →
      process_notes (some s) = ([], [strL "None."])) := by
  refine ⟨removeFiller_deletes s, removeFiller_eq_iff s, ?_⟩
  intro hnil
  rw [process_notes_some_eq, if_pos (by rw [hnil]; rfl)]

/-- Witness for C8: a notes text that is exactly one filler phrase is changed
by the removal, and yields the default output. -/
theorem process_notes_removes_filler_check :
    removeFiller (strL "Hold kids’ hands") ≠ strL "Hold kids’ hands" ∧
    process_notes (some (strL "Hold kids’ hands")) = ([], [strL "None."]) := by
  have h := process_notes_removes_filler (strL "Hold kids’ hands")
  constructor
  · intro heq
    refine (h.2.1.mp heq) ⟨[], strL "Hold kids’ hands", [], by simp, ?_⟩
    exact Or.inl ⟨strL "Hold", strL " ", strL "kids’", strL " ", strL "hands",
      by decide, by decide, ⟨by decide, by decide⟩, by decide,
      ⟨by decide, by decide⟩, by decide⟩
  · exact h.2.2 (by decide)


/-! ## table_to_json

The pandas boundary is modelled by `Row` (one spreadsheet row, each cell an
`Option (List Char)` with `none` for NaN) and `Sheet` (tab name, raw column
labels, rows).  `table_to_json` returns the value of the "itinerary" key, or
the data of the ValueError raised on a sheet with missing columns. -/

structure Row where
  date : Option (List Char)
  time : Option (List Char)
  activity : Option (List Char)
  location : Option (List Char)
  directions : Option (List Char)
  transportation : Option (List Char)
  notes : Option (List Char)
deriving DecidableEq

structure Sheet where
  name : List Char
  columns : List (List Char)
  rows : List Row
deriving DecidableEq

structure Activity where
  time : List Char
  activity : List Char
  location : List Char
  mapLink : Sum (List (List Char)) (List Char)
  directions : List (List Char)
  transportation : List (List Char)
  thingsToDo : List (List Char)
  ticketsToBuy : List (List Char)
  costsAndNotes : List (List Char)
  type : List (List Char)
  city : List Char
deriving DecidableEq

structure DateGroup where
  city : List Char
  date : List Char
  activities : List Activity
deriving DecidableEq

/-- Data of the ValueError raised for a sheet with missing columns. -/
structure ColumnsError where
  sheet : List Char
  missing : List (List Char)
  found : List (List Char)
deriving DecidableEq

/-- Python `str(cell)`: a NaN cell prints as "nan". -/
def pyStrCell (c : Option (List Char)) : List Char := c.getD (strL "nan")

/-- The required column labels. -/
def expectedColumns : List (List Char) :=
  [strL "date", strL "time", strL "activity", strL "location",
   strL "directions", strL "transportation details", strL "notes"]

/-- Labels of `expectedColumns` absent from the normalized columns. -/
def sheetMissing (sh : Sheet) : List (List Char) :=
  expectedColumns.filter (fun c => !(normalize_columns sh.columns).contains c)

/-- Fragments of a cell split on periods, stripped, empties dropped. -/
def dotFragments (s : List Char) : List (List Char) :=
  ((splitOnPred (fun c => c = '.') s).map pyStrip).filter (fun x => !x.isEmpty)

/-- The things-to-do phrase ladder of the row loop. -/
def things_to_do (activity location : List Char) : List (List Char) :=
  let al := lowerStr activity
  let items :=
    (if hasSub (strL "arrive") al then
      [strL "Arrive at " ++ location ++ ['.']] else []) ++
    (if hasSub (strL "walk") al then
      [strL "Walk to " ++ location ++ ['.']] else []) ++
    (if hasSub (strL "taxi") al || hasSub (strL "flight") al ||
        hasSub (strL "train") al || hasSub (strL "vaporetto") al then
      [strL "Travel to " ++ location ++ ['.']] else []) ++
    (if hasSub (strL "breakfast") al || hasSub (strL "lunch") al ||
        hasSub (strL "dinner") al || hasSub (strL "gelato") al then
      [strL "Enjoy " ++ al ++ strL " at " ++ location ++ ['.']] else []) ++
    (if hasSub (strL "view") al || hasSub (strL "explore") al ||
        hasSub (strL "relax") al || hasSub (strL "free time") al then
      [strL "Explore or relax at " ++ location ++ ['.']] else []) ++
    (if hasSub (strL "check-in") al || hasSub (strL "check out") al then
      [strL "Complete check-in/out at " ++ location ++ ['.']] else []) ++
    (if hasSub (strL "luggage") al then
      [strL "Handle luggage at " ++ location ++ ['.']] else [])
  if items.isEmpty then [strL "Perform activity: " ++ activity ++ ['.']] else items

/-- The activity record built for one row of a sheet. -/
def mkActivity (city : List Char) (r : Row) : Activity :=
  let activity := r.activity.getD []
  let location := r.location.getD []
  let directions := r.directions.getD (strL "N/A")
  let transportation := r.transportation.getD (strL "N/A")
  let notes := r.notes.getD []
  let pn := process_notes (some notes)
  { time := pyStrCell r.time
    activity := activity
    location := location
    mapLink := generate_map_link location
    directions := if directions = strL "N/A" then [strL "N/A"]
      else dotFragments directions
    transportation := if transportation = strL "N/A" then [strL "N/A"]
      else dotFragments transportation
    thingsToDo := things_to_do activity location
    ticketsToBuy := pn.2
    costsAndNotes := pn.1
    type := assign_activity_type activity notes
    city := city }

/-- Grouping key of a row: its converted date string. -/
def rowKey (r : Row) : List Char := convert_date (pyStrCell r.date)

/-- Append a record to its date bucket, creating the bucket on first
encounter, as the insertion-ordered Python dict does. -/
def addRec (m : List (List Char × List Activity)) (k : List Char) (a : Activity) :
    List (List Char × List Activity) :=
  match m with
  | [] => [(k, [a])]
  | (k', as') :: rest =>
    if k' = k then (k', as' ++ [a]) :: rest else (k', as') :: addRec rest k a

/-- The keyed records of one sheet, in row order. -/
def keyedRows (city : List Char) (rows : List Row) : List (List Char × Activity) :=
  rows.map (fun r => (rowKey r, mkActivity city r))

/-- The keyed records of all sheets, in sheet then row order. -/
def allKeyed (sheets : List Sheet) : List (List Char × Activity) :=
  sheets.flatMap (fun sh => keyedRows sh.name sh.rows)

/-- Insert a list of keyed records into the date map. -/
def addAll (m : List (List Char × List Activity)) :
    List (List Char × Activity) → List (List Char × List Activity)
  | [] => m
  | p :: rest => addAll (addRec m p.1 p.2) rest

/-- The per-sheet loop: validate the columns, then fold the rows in. -/
def goSheets : List Sheet → List (List Char × List Activity) →
    Except ColumnsError (List (List Char × List Activity))
  | [], m => Except.ok m
  | sh :: rest, m =>
    if expectedColumns.all (fun c => (normalize_columns sh.columns).contains c) then
      goSheets rest (addAll m (keyedRows sh.name sh.rows))
    else Except.error ⟨sh.name, sheetMissing sh, sh.columns⟩

/-- Python string comparison: lexicographic by code point. -/
def lexLt : List Char → List Char → Bool
  | [], [] => false
  | [], _ :: _ => true
  | _ :: _, [] => false
  | a :: as', b :: bs =>
    if a.toNat < b.toNat then true
    else if a.toNat = b.toNat then lexLt as' bs
    else false

/-- Insertion into a list sorted by key, as `sorted` orders the dict items
(keys are distinct, so only the key comparison matters). -/
def insertPair (p : List Char × List Activity) :
    List (List Char × List Activity) → List (List Char × List Activity)
  | [] => [p]
  | q :: rest => if lexLt p.1 q.1 then p :: q :: rest else q :: insertPair p rest

/-- Sort of the date map items by key. -/
def sortPairs : List (List Char × List Activity) → List (List Char × List Activity)
  | [] => []
  | p :: rest => insertPair p (sortPairs rest)

/-- Insertion into a sorted list of strings. -/
def insertStr (s : List Char) : List (List Char) → List (List Char)
  | [] => [s]
  | q :: rest => if lexLt s q then s :: q :: rest else q :: insertStr s rest

/-- `sorted` on a list of strings. -/
def sortStrs : List (List Char) → List (List Char)
  | [] => []
  | s :: rest => insertStr s (sortStrs rest)

/-- The date group emitted for one sorted map entry: the comma-joined sorted
set of member cities, the date key, and the bucket in insertion order. -/
def mkGroup (p : List Char × List Activity) : DateGroup :=
  { city := List.intercalate (strL ", ")
      (sortStrs (p.2.map (fun a => a.city)).eraseDups)
    date := p.1
    activities := p.2 }

/-- Embedding of table_to_json over the in-memory sheets. -/
def table_to_json (sheets : List Sheet) : Except ColumnsError (List DateGroup) :=
  (goSheets sheets []).map (fun m => (sortPairs m).map mkGroup)

theorem lexLt_irrefl (a : List Char) : lexLt a a = false := by
  induction a with
  | nil => rfl
  | cons c cs ih => simp [lexLt, ih]

theorem lexLt_trans : ∀ a b c, lexLt a b = true → lexLt b c = true →
    lexLt a c = true := by
  intro a
  induction a with
  | nil =>
    intro b c h1 h2
    cases b with
    | nil => simp [lexLt] at h1
    | cons b0 bs =>
      cases c with
      | nil => simp [lexLt] at h2
      | cons c0 cs => rfl
  | cons a0 as ih =>
    intro b c h1 h2
    cases b with
    | nil => simp [lexLt] at h1
    | cons b0 bs =>
      cases c with
      | nil => simp [lexLt] at h2
      | cons c0 cs =>
        simp only [lexLt] at h1 h2 ⊢
        by_cases hab : a0.toNat < b0.toNat
        · by_cases hbc : b0.toNat < c0.toNat
          · rw [if_pos (by omega : a0.toNat < c0.toNat)]
          · rw [if_neg hbc] at h2
            by_cases hbce : b0.toNat = c0.toNat
            · rw [if_pos (by omega : a0.toNat < c0.toNat)]
            · rw [if_neg hbce] at h2
              exact absurd h2 (by simp)
        · rw [if_neg hab] at h1
          by_cases habe : a0.toNat = b0.toNat
          · rw [if_pos habe] at h1
            by_cases hbc : b0.toNat < c0.toNat
            · rw [if_pos (by omega : a0.toNat < c0.toNat)]
            · rw [if_neg hbc] at h2
              by_cases hbce : b0.toNat = c0.toNat
              · rw [if_pos hbce] at h2
                rw [if_neg (by omega : ¬ a0.toNat < c0.toNat),
                  if_pos (by omega : a0.toNat = c0.toNat)]
                exact ih bs cs h1 h2
              · rw [if_neg hbce] at h2
                exact absurd h2 (by simp)
          · rw [if_neg habe] at h1
            exact absurd h1 (by simp)

theorem lexLt_asymm {a b : List Char} (h : lexLt a b = true) :
    lexLt b a = false := by
  by_contra h2
  simp only [Bool.not_eq_false] at h2
  have h3 := lexLt_trans a b a h h2
  rw [lexLt_irrefl] at h3
  exact Bool.noConfusion h3

theorem lexLt_trichotomy (a : List Char) : ∀ b,
    lexLt a b = true ∨ a = b ∨ lexLt b a = true := by
  induction a with
  | nil =>
    intro b
    cases b with
    | nil => exact Or.inr (Or.inl rfl)
    | cons b0 bs => exact Or.inl rfl
  | cons a0 as ih =>
    intro b
    cases b with
    | nil => exact Or.inr (Or.inr rfl)
    | cons b0 bs =>
      rcases Nat.lt_trichotomy a0.toNat b0.toNat with h | h | h
      · left
        simp only [lexLt]
        rw [if_pos h]
      · rcases ih bs with h2 | h2 | h2
        · left
          simp only [lexLt]
          rw [if_neg (by omega), if_pos h]
          exact h2
        · right; left
          rw [char_toNat_inj h, h2]
        · right; right
          simp only [lexLt]
          rw [if_neg (by omega), if_pos h.symm]
          exact h2
      · right; right
        simp only [lexLt]
        rw [if_pos h]

/-- Sorted-map order: the second key does not precede the first. -/
def pairLe (p q : List Char × List Activity) : Prop := lexLt q.1 p.1 = false

theorem insertPair_perm (p : List Char × List Activity) (l) :
    (insertPair p l).Perm (p :: l) := by
  induction l with
  | nil => exact List.Perm.refl _
  | cons q rest ih =>
    simp only [insertPair]
    split_ifs with h
    · exact List.Perm.refl _
    · exact (ih.cons q).trans (List.Perm.swap p q rest)

theorem sortPairs_perm (l : List (List Char × List Activity)) :
    (sortPairs l).Perm l := by
  induction l with
  | nil => exact List.Perm.refl _
  | cons p rest ih => exact (insertPair_perm p (sortPairs rest)).trans (ih.cons p)

theorem insertPair_pairwise {p : List Char × List Activity} {l}
    (hl : List.Pairwise pairLe l) : List.Pairwise pairLe (insertPair p l) := by
  induction l with
  | nil => simp [insertPair]
  | cons q rest ih =>
    obtain ⟨hq, hrest⟩ := List.pairwise_cons.mp hl
    simp only [insertPair]
    split_ifs with h
    · refine List.pairwise_cons.mpr ⟨?_, hl⟩
      intro x hx
      rcases List.mem_cons.mp hx with rfl | hx2
      · exact lexLt_asymm h
      · show lexLt x.1 p.1 = false
        by_contra hc
        simp only [Bool.not_eq_false] at hc
        have h3 := lexLt_trans x.1 p.1 q.1 hc h
        rw [hq x hx2] at h3
        exact Bool.noConfusion h3
    · refine List.pairwise_cons.mpr ⟨?_, ih hrest⟩
      intro x hx
      have hx2 : x = p ∨ x ∈ rest :=
        List.mem_cons.mp ((insertPair_perm p rest).mem_iff.mp hx)
      rcases hx2 with rfl | hx2
      · simpa using h
      · exact hq x hx2

theorem sortPairs_pairwise (l : List (List Char × List Activity)) :
    List.Pairwise pairLe (sortPairs l) := by
  induction l with
  | nil => simp [sortPairs]
  | cons p rest ih => exact insertPair_pairwise ih

/-- Value of a key in the date map. -/
def lookupKey : List (List Char × List Activity) → List Char → List Activity
  | [], _ => []
  | (k', as') :: rest, k => if k' = k then as' else lookupKey rest k

theorem lookupKey_addRec (m : List (List Char × List Activity)) (k : List Char)
    (a : Activity) (q : List Char) :
    lookupKey (addRec m k a) q =
      if q = k then lookupKey m q ++ [a] else lookupKey m q := by
  induction m with
  | nil =>
    by_cases h : q = k
    · subst h
      simp [addRec, lookupKey]
    · simp only [addRec, lookupKey]
      rw [if_neg (fun hh => h hh.symm), if_neg h]
  | cons pr rest ih =>
    obtain ⟨k', as'⟩ := pr
    simp only [addRec]
    by_cases h1 : k' = k
    · rw [if_pos h1]
      subst h1
      simp only [lookupKey]
      by_cases h2 : k' = q
      · subst h2
        rw [if_pos rfl, if_pos rfl, if_pos rfl]
      · rw [if_neg h2, if_neg h2, if_neg (fun hh => h2 hh.symm)]
    · rw [if_neg h1]
      simp only [lookupKey]
      by_cases h2 : k' = q
      · subst h2
        rw [if_pos rfl, if_pos rfl, if_neg h1]
      · rw [if_neg h2, if_neg h2, ih]

theorem keys_addRec (m : List (List Char × List Activity)) (k : List Char)
    (a : Activity) :
    (addRec m k a).map Prod.fst =
      if k ∈ m.map Prod.fst then m.map Prod.fst else m.map Prod.fst ++ [k] := by
  induction m with
  | nil => simp [addRec]
  | cons pr rest ih =>
    obtain ⟨k', as'⟩ := pr
    simp only [addRec]
    by_cases h1 : k' = k
    · rw [if_pos h1]
      subst h1
      simp [List.mem_cons]
    · rw [if_neg h1]
      simp only [List.map_cons, ih]
      by_cases h2 : k ∈ rest.map Prod.fst
      · rw [if_pos h2, if_pos (by simp [h2])]
      · rw [if_neg h2, if_neg (by
          simp only [List.map_cons, List.mem_cons, not_or]
          exact ⟨fun hh => h1 hh.symm, h2⟩)]
        rfl

theorem mem_keys_addRec (m : List (List Char × List Activity)) (k : List Char)
    (a : Activity) (q : List Char) :
    q ∈ (addRec m k a).map Prod.fst ↔ q ∈ m.map Prod.fst ∨ q = k := by
  rw [keys_addRec]
  split_ifs with hm
  · constructor
    · exact Or.inl
    · rintro (h | rfl)
      · exact h
      · exact hm
  · simp

theorem nodup_keys_addRec (m : List (List Char × List Activity)) (k : List Char)
    (a : Activity) (h : (m.map Prod.fst).Nodup) :
    ((addRec m k a).map Prod.fst).Nodup := by
  rw [keys_addRec]
  split_ifs with hm
  · exact h
  · rw [← List.concat_eq_append]
    exact List.Nodup.concat hm h

theorem lookupKey_addAll : ∀ (recs : List (List Char × Activity)) m q,
    lookupKey (addAll m recs) q =
      lookupKey m q ++ (recs.filter (fun p => p.1 = q)).map Prod.snd := by
  intro recs
  induction recs with
  | nil => intro m q; simp [addAll]
  | cons p rest ih =>
    intro m q
    simp only [addAll]
    rw [ih, lookupKey_addRec]
    by_cases h : p.1 = q
    · rw [if_pos h.symm]
      simp [List.filter_cons, h, List.append_assoc]
    · rw [if_neg (fun hh => h hh.symm)]
      simp [List.filter_cons, h]

theorem mem_keys_addAll : ∀ (recs : List (List Char × Activity)) m q,
    q ∈ (addAll m recs).map Prod.fst ↔
      q ∈ m.map Prod.fst ∨ q ∈ recs.map Prod.fst := by
  intro recs
  induction recs with
  | nil => intro m q; simp [addAll]
  | cons p rest ih =>
    intro m q
    simp only [addAll]
    rw [ih, mem_keys_addRec]
    simp only [List.map_cons, List.mem_cons]
    tauto

theorem nodup_keys_addAll : ∀ (recs : List (List Char × Activity)) m,
    (m.map Prod.fst).Nodup → ((addAll m recs).map Prod.fst).Nodup := by
  intro recs
  induction recs with
  | nil => intro m h; exact h
  | cons p rest ih =>
    intro m h
    exact ih _ (nodup_keys_addRec m p.1 p.2 h)

theorem mem_lookupKey : ∀ {m : List (List Char × List Activity)},
    (m.map Prod.fst).Nodup → ∀ {k v}, (k, v) ∈ m → lookupKey m k = v := by
  intro m
  induction m with
  | nil => intro _ k v h; simp at h
  | cons pr rest ih =>
    intro hnd k v h
    obtain ⟨k', as'⟩ := pr
    simp only [List.map_cons] at hnd
    obtain ⟨hk', hnd'⟩ := List.nodup_cons.mp hnd
    rcases List.mem_cons.mp h with heq | hmem
    · cases heq
      simp [lookupKey]
    · have hne : k' ≠ k := by
        intro hh
        subst hh
        exact hk' (by simpa using List.mem_map_of_mem Prod.fst hmem)
      simp only [lookupKey]
      rw [if_neg hne]
      exact ih hnd' hmem

theorem addAll_append : ∀ (a b : List (List Char × Activity)) m,
    addAll m (a ++ b) = addAll (addAll m a) b := by
  intro a
  induction a with
  | nil => intro b m; rfl
  | cons p rest ih => intro b m; simp only [List.cons_append, addAll]; exact ih b _

theorem all_contains_iff_missing (sh : Sheet) :
    (expectedColumns.all
      (fun c => (normalize_columns sh.columns).contains c)) = true ↔
      sheetMissing sh = [] := by
  rw [List.all_eq_true, sheetMissing, List.filter_eq_nil_iff]
  constructor
  · intro h c hc
    simpa using h c hc
  · intro h c hc
    have h2 := h c hc
    simpa using h2

theorem goSheets_error (sh : Sheet) (post : List Sheet) :
    ∀ pre m, (∀ s ∈ pre, sheetMissing s = []) → sheetMissing sh ≠ [] →
      goSheets (pre ++ sh :: post) m =
        Except.error ⟨sh.name, sheetMissing sh, sh.columns⟩ := by
  intro pre
  induction pre with
  | nil =>
    intro m hpre hsh
    simp only [List.nil_append, goSheets]
    rw [if_neg (fun hall => hsh ((all_contains_iff_missing sh).mp hall))]
  | cons s pre' ih =>
    intro m hpre hsh
    simp only [List.cons_append, goSheets]
    rw [if_pos ((all_contains_iff_missing s).mpr
      (hpre s (List.mem_cons_self s pre')))]
    exact ih _ (fun x hx => hpre x (List.mem_cons_of_mem s hx)) hsh

/-- C6: the column check runs once per sheet, before its rows: with every
earlier sheet valid, a sheet missing required labels makes the run fail with
an error naming exactly the missing labels, whatever rows that sheet or the
later sheets hold. -/
theorem table_to_json_missing_columns (pre : List Sheet) (sh : Sheet)
    (post : List Sheet) (hpre : ∀ s ∈ pre, sheetMissing s = [])
    (hsh : sheetMissing sh ≠ []) :
    table_to_json (pre ++ sh :: post) =
      Except.error ⟨sh.name, sheetMissing sh, sh.columns⟩ := by
  rw [table_to_json, goSheets_error sh post pre [] hpre hsh]
  rfl

/-- Columns of the witness sheet for C6: "notes" is absent. -/
def venCols : List (List Char) :=
  [strL "Date", strL "Time", strL "Activity", strL "Location",
   strL "Directions", strL "Transportation Details"]

/-- Witness for C6 on a sheet whose only missing label is "notes". -/
theorem table_to_json_missing_columns_check :
    table_to_json [⟨strL "Venice", venCols, []⟩] =
      Except.error ⟨strL "Venice", [strL "notes"], venCols⟩ := by
  have h := table_to_json_missing_columns [] ⟨strL "Venice", venCols, []⟩ []
    (by intro s hs; simp at hs) (by decide)
  have h2 : sheetMissing ⟨strL "Venice", venCols, []⟩ = [strL "notes"] := by
    decide
  exact h.trans (by rw [h2])

theorem goSheets_ok_inv : ∀ (sheets : List Sheet) m0 m,
    goSheets sheets m0 = Except.ok m → m = addAll m0 (allKeyed sheets) := by
  intro sheets
  induction sheets with
  | nil =>
    intro m0 m h
    simp only [goSheets, Except.ok.injEq] at h
    rw [← h]
    rfl
  | cons sh rest ih =>
    intro m0 m h
    simp only [goSheets] at h
    split_ifs at h with hval
    rw [ih _ _ h, show allKeyed (sh :: rest) =
      keyedRows sh.name sh.rows ++ allKeyed rest from by
        simp [allKeyed, List.flatMap_cons], addAll_append]

/-- C5: on a successful run the date groups are sorted strictly ascending by
string comparison of the converted date key; each group's city is the
comma-joined sorted de-duplicated cities of its member records; each group's
activities are exactly the records whose key is the group's date, in row
order within and across sheets; and the groups' dates are exactly the keys
occurring among the records. -/
theorem table_to_json_grouping (sheets : List Sheet) (it : List DateGroup)
    (h : table_to_json sheets = Except.ok it) :
    List.Pairwise (fun g1 g2 => lexLt g1.date g2.date = true) it ∧
    (∀ g ∈ it,
      g.city = List.intercalate (strL ", ")
        (sortStrs (g.activities.map (fun a => a.city)).eraseDups) ∧
      g.activities =
        ((allKeyed sheets).filter (fun p => p.1 = g.date)).map Prod.snd) ∧
    (∀ d, (∃ g ∈ it, g.date = d) ↔ d ∈ (allKeyed sheets).map Prod.fst) := by
  have hinv : ∃ m, goSheets sheets [] = Except.ok m ∧
      it = (sortPairs m).map mkGroup := by
    rw [table_to_json] at h
    cases hg : goSheets sheets [] with
    | ok m =>
      rw [hg] at h
      simp only [Except.map, Except.ok.injEq] at h
      exact ⟨m, rfl, h.symm⟩
    | error e =>
      rw [hg] at h
      simp [Except.map] at h
  obtain ⟨m, hm, rfl⟩ := hinv
  have hmeq : m = addAll [] (allKeyed sheets) := goSheets_ok_inv sheets [] m hm
  have hnd : (m.map Prod.fst).Nodup := by
    rw [hmeq]
    exact nodup_keys_addAll _ [] (by simp)
  have hperm : (sortPairs m).Perm m := sortPairs_perm m
  have hnds : ((sortPairs m).map Prod.fst).Nodup :=
    (hperm.map Prod.fst).nodup_iff.mpr hnd
  refine ⟨?_, ?_, ?_⟩
  · have hpw := sortPairs_pairwise m
    rw [List.Nodup, List.pairwise_map] at hnds
    rw [List.pairwise_map]
    refine (hpw.and hnds).imp ?_
    intro a b hab
    obtain ⟨h1, h2⟩ := hab
    rcases lexLt_trichotomy a.1 b.1 with h3 | h3 | h3
    · exact h3
    · exact absurd h3 h2
    · rw [pairLe] at h1
      rw [h1] at h3
      exact Bool.noConfusion h3
  · intro g hg
    rw [List.mem_map] at hg
    obtain ⟨p, hp, rfl⟩ := hg
    refine ⟨rfl, ?_⟩
    have hpm : p ∈ m := hperm.subset hp
    have hlk : lookupKey m p.1 = p.2 := mem_lookupKey hnd hpm
    show p.2 = ((allKeyed sheets).filter (fun q => q.1 = p.1)).map Prod.snd
    rw [← hlk, hmeq, lookupKey_addAll]
    rfl
  · intro d
    constructor
    · rintro ⟨g, hg, rfl⟩
      rw [List.mem_map] at hg
      obtain ⟨p, hp, rfl⟩ := hg
      have hpm : p ∈ m := hperm.subset hp
      have hk : p.1 ∈ m.map Prod.fst := List.mem_map_of_mem Prod.fst hpm
      rw [hmeq] at hk
      rcases (mem_keys_addAll _ _ _).mp hk with h2 | h2
      · simp at h2
      · exact h2
    · intro hd
      have hk : d ∈ m.map Prod.fst := by
        rw [hmeq]
        exact (mem_keys_addAll _ _ _).mpr (Or.inr hd)
      rw [List.mem_map] at hk
      obtain ⟨p, hp, rfl⟩ := hk
      exact ⟨mkGroup p, List.mem_map_of_mem mkGroup (hperm.mem_iff.mpr hp), rfl⟩

/-- A row dated "3-Jul-25" with every other cell missing. -/
def wRow : Row :=
  ⟨some (strL "3-Jul-25"), none, none, none, none, none, none⟩

/-- A full set of proper-case column labels. -/
def wCols : List (List Char) :=
  [strL "Date", strL "Time", strL "Activity", strL "Location",
   strL "Directions", strL "Transportation Details", strL "Notes"]

/-- Two sheets, Venice then Rome, each contributing one row dated
"3-Jul-25". -/
def wSheets : List Sheet :=
  [⟨strL "Venice", wCols, [wRow]⟩, ⟨strL "Rome", wCols, [wRow]⟩]

/-- The single date group the two sheets produce: city "Rome, Venice"
(alphabetical), date "July 3, 2025", activities in sheet order. -/
def wIt : List DateGroup :=
  [⟨strL "Rome, Venice", strL "July 3, 2025",
    [mkActivity (strL "Venice") wRow, mkActivity (strL "Rome") wRow]⟩]

/-- Witness for C5 on the two-sheet Venice/Rome scenario. -/
theorem table_to_json_grouping_check :
    table_to_json wSheets = Except.ok wIt ∧
    (List.Pairwise (fun g1 g2 => lexLt g1.date g2.date = true) wIt ∧
     (∀ g ∈ wIt,
       g.city = List.intercalate (strL ", ")
         (sortStrs (g.activities.map (fun a => a.city)).eraseDups) ∧
       g.activities =
         ((allKeyed wSheets).filter (fun p => p.1 = g.date)).map Prod.snd) ∧
     (∀ d, (∃ g ∈ wIt, g.date = d) ↔ d ∈ (allKeyed wSheets).map Prod.fst)) :=
  ⟨by rfl, table_to_json_grouping wSheets wIt (by rfl)⟩

end ItinConv
